import Mathlib

/-!
Verification of the goanalysis runner (`pkg/golinters/goanalysis/runner.go`).

The development shallowly embeds the parts of the runner the claims talk
about:

* the action-graph builder `mkAction` / `analyze` (graph phase) — C1, C2;
* the diagnostic extractor `extractDiagnostics` — C5, C8;
* the per-action executor `action.analyze` (run gating) — C3;
* fact persistence `persistFactsToCache`, fact inheritance `inheritFacts`,
  cached-fact loading `loadCachedFacts` / `loadPersistedFacts`, and
  `exportPackageFact` — C4, C7, C9, C10;
* the per-package loader `loadingPackage.loadWithFacts` — C6.

Go pointers used as map keys (`*analysis.Analyzer`, `*packages.Package`) are
modelled by structural values: analyzers with their `Requires` list inlined
and packages with their `Imports` map inlined as an association list, so the
acyclicity of the Go import/requires graphs is by construction.  Go maps
become association lists where assignment prepends (the new binding shadows
any older one, as Go assignment overwrites).  External effects (gob codec,
the package cache, `objectpath`, file parsing and type checking) are
parameters of the corresponding functions.
-/

namespace GoAnalysis

/-! ### Action-graph builder model (runner.go, `analyze` / `mkAction`) -/

/-- Attributes of `analysis.Analyzer` consulted by the graph builder: a
name, the `Requires` list (inlined), and the `FactTypes` list (fact types
are identified by their reflect-type name). -/
inductive Analyzer where
  | mk (name : String) (requiresList : List Analyzer) (factTypes : List String)

/-- Attributes of `packages.Package` consulted by the graph builder: the
package path and the `Imports` map, inlined as an association list from an
importing path to the imported package. -/
inductive Package where
  | mk (path : String) (imports : List (String × Package))

def Analyzer.name : Analyzer → String
  | .mk n _ _ => n

def Analyzer.requiresList : Analyzer → List Analyzer
  | .mk _ r _ => r

def Analyzer.factTypes : Analyzer → List String
  | .mk _ _ f => f

def Package.path : Package → String
  | .mk p _ => p

def Package.imports : Package → List (String × Package)
  | .mk _ i => i

def Analyzer.decEq : (a b : Analyzer) → Decidable (a = b)
  | .mk n1 r1 f1, .mk n2 r2 f2 =>
    match String.decEq n1 n2, goList r1 r2,
          (inferInstanceAs (DecidableEq (List String))) f1 f2 with
    | isTrue h1, isTrue h2, isTrue h3 => isTrue (by rw [h1, h2, h3])
    | isFalse h1, _, _ => isFalse (fun he => by cases he; exact h1 rfl)
    | _, isFalse h2, _ => isFalse (fun he => by cases he; exact h2 rfl)
    | _, _, isFalse h3 => isFalse (fun he => by cases he; exact h3 rfl)
where goList : (a b : List Analyzer) → Decidable (a = b)
  | [], [] => isTrue rfl
  | [], _ :: _ => isFalse (fun he => by cases he)
  | _ :: _, [] => isFalse (fun he => by cases he)
  | x :: xs, y :: ys =>
    match Analyzer.decEq x y, goList xs ys with
    | isTrue h1, isTrue h2 => isTrue (by rw [h1, h2])
    | isFalse h1, _ => isFalse (fun he => by cases he; exact h1 rfl)
    | _, isFalse h2 => isFalse (fun he => by cases he; exact h2 rfl)

instance : DecidableEq Analyzer := Analyzer.decEq

def Package.decEq : (a b : Package) → Decidable (a = b)
  | .mk p1 i1, .mk p2 i2 =>
    match String.decEq p1 p2, goList i1 i2 with
    | isTrue h1, isTrue h2 => isTrue (by rw [h1, h2])
    | isFalse h1, _ => isFalse (fun he => by cases he; exact h1 rfl)
    | _, isFalse h2 => isFalse (fun he => by cases he; exact h2 rfl)
where goList : (a b : List (String × Package)) → Decidable (a = b)
  | [], [] => isTrue rfl
  | [], _ :: _ => isFalse (fun he => by cases he)
  | _ :: _, [] => isFalse (fun he => by cases he)
  | (s1, q1) :: t1, (s2, q2) :: t2 =>
    match String.decEq s1 s2, Package.decEq q1 q2, goList t1 t2 with
    | isTrue h1, isTrue h2, isTrue h3 => isTrue (by rw [h1, h2, h3])
    | isFalse h1, _, _ => isFalse (fun he => by cases he; exact h1 rfl)
    | _, isFalse h2, _ => isFalse (fun he => by cases he; exact h2 rfl)
    | _, _, isFalse h3 => isFalse (fun he => by cases he; exact h3 rfl)

instance : DecidableEq Package := Package.decEq

instance {E A : Type} [DecidableEq E] [DecidableEq A] : DecidableEq (Except E A) :=
  fun x y =>
    match x, y with
    | .error a, .error b =>
      if h : a = b then isTrue (by rw [h])
      else isFalse (fun he => by cases he; exact h rfl)
    | .ok a, .ok b =>
      if h : a = b then isTrue (by rw [h])
      else isFalse (fun he => by cases he; exact h rfl)
    | .error _, .ok _ => isFalse (fun he => by cases he)
    | .ok _, .error _ => isFalse (fun he => by cases he)

/-- The graph key: the Go code keys actions by the pair of pointers
`(*analysis.Analyzer, *packages.Package)`; here the pair of values. -/
abbrev ActionKey := Analyzer × Package

/-- The fields of an `action` that the graph-construction claims are about.
`deps` stores the keys of the dependency actions (a key identifies an
action uniquely, see C2). -/
structure ActionData where
  deps : List ActionKey
  isroot : Bool
  isInitialPkg : Bool
  needAnalyzeSource : Bool
deriving DecidableEq

/-- The `actions` map of `runner.analyze`, as an association list; a fresh
binding is prepended (Go map assignment). -/
abbrev ActionMap := List (ActionKey × ActionData)

def lookupAct (m : ActionMap) (k : ActionKey) : Option ActionData :=
  match m with
  | [] => none
  | (k', d) :: rest => if k' = k then some d else lookupAct rest k

/-- Indexing `pkg.Imports[path]` of the Go imports map. -/
def lookupImport (imports : List (String × Package)) (path : String) : Option Package :=
  match imports with
  | [] => none
  | (p, q) :: rest => if p = path then some q else lookupImport rest path

/-- The import paths of `pkg`, sorted ascending (`sort.Strings(paths)`). -/
def sortedImportPaths (pkg : Package) : List String :=
  List.insertionSort (· ≤ ·) (pkg.imports.map Prod.fst)

/-- The dependency list `mkAction` builds for a fresh action `(a, pkg)`:
one dependency per required analyzer on the same package, then — when
`a.FactTypes` is non-empty — one dependency for `a` on each direct import,
enumerated in ascending import-path order. -/
def depsOf (a : Analyzer) (pkg : Package) : List ActionKey :=
  a.requiresList.map (fun req => (req, pkg)) ++
    (if a.factTypes.isEmpty then []
     else (sortedImportPaths pkg).filterMap
       (fun path => (lookupImport pkg.imports path).map (fun q => (a, q))))

mutual

/-- `mkAction` of `runner.analyze`: ensure an action exists for `(a, pkg)`.
If the key is present, return the map unchanged (the existing action is
reused); otherwise recursively ensure the dependency actions — required
analyzers on the same package, then (for fact-producing analyzers) the same
analyzer on every direct import in sorted path order — and insert the new
action. -/
def mkAction (initialPkgs : List Package) (a : Analyzer) (pkg : Package)
    (m : ActionMap) : ActionMap :=
  if (lookupAct m (a, pkg)).isSome then m
  else
    let m1 := mkActionReqs initialPkgs a.requiresList pkg m
    let m2 :=
      if a.factTypes.isEmpty then m1
      else mkActionImps initialPkgs a (sortedImportPaths pkg) pkg.imports m1
    ((a, pkg),
      { deps := depsOf a pkg
        isroot := false
        isInitialPkg := decide (pkg ∈ initialPkgs)
        needAnalyzeSource := decide (pkg ∈ initialPkgs) }) :: m2
  termination_by (sizeOf a + sizeOf pkg, 0)
  decreasing_by
  · apply Prod.Lex.left
    have h1 : sizeOf a.requiresList < sizeOf a := by
      cases a with | mk n r f => simp [Analyzer.requiresList] <;> omega
    all_goals omega
  · apply Prod.Lex.left
    have h1 : sizeOf pkg.imports < sizeOf pkg := by
      cases pkg with | mk p i => simp [Package.imports] <;> omega
    all_goals omega

/-- The loop `for _, req := range a.Requires { act.deps = append(act.deps,
mkAction(req, pkg)) }`, restricted to its map effect. -/
def mkActionReqs (initialPkgs : List Package) (reqs : List Analyzer)
    (pkg : Package) (m : ActionMap) : ActionMap :=
  match reqs with
  | [] => m
  | req :: rest =>
    mkActionReqs initialPkgs rest pkg (mkAction initialPkgs req pkg m)
  termination_by (sizeOf reqs + sizeOf pkg, 0)
  decreasing_by
  · apply Prod.Lex.left
    have h1 : sizeOf req < sizeOf (req :: rest) := by simp <;> omega
    all_goals omega
  · apply Prod.Lex.left
    have h1 : sizeOf rest < sizeOf (req :: rest) := by simp <;> omega
    all_goals omega

/-- The loop `for _, path := range paths { dep := mkAction(a,
pkg.Imports[path]); ... }`, restricted to its map effect. -/
def mkActionImps (initialPkgs : List Package) (a : Analyzer)
    (paths : List String) (imports : List (String × Package))
    (m : ActionMap) : ActionMap :=
  match paths with
  | [] => m
  | path :: rest =>
    let m1 :=
      match hq : lookupImport imports path with
      | some q => mkAction initialPkgs a q m
      | none => m
    mkActionImps initialPkgs a rest imports m1
  termination_by (sizeOf a + sizeOf imports, sizeOf paths)
  decreasing_by
  · apply Prod.Lex.left
    have aux : ∀ (l : List (String × Package)) (p : String) (q : Package),
        lookupImport l p = some q → sizeOf q < sizeOf l := by
      intro l
      induction l with
      | nil => intro p q h; simp [lookupImport] at h
      | cons hd tl ih =>
        intro p q h
        rw [lookupImport] at h
        split at h
        · cases h
          cases hd with | mk s q2 => simp <;> omega
        · have := ih p q h
          cases hd with | mk s q2 => simp <;> omega
    have := aux imports path q hq
    all_goals omega
  · apply Prod.Lex.right
    simp <;> omega

end

/-- `root.isroot = true`: set the root flag on the action stored at `k`. -/
def markRoot (m : ActionMap) (k : ActionKey) : ActionMap :=
  m.map (fun e => if e.1 = k then (e.1, { e.2 with isroot := true }) else e)

/-- The graph-construction phase of `runner.analyze`: for each analyzer and
each initial package, ensure the action and mark it root.  Returns the
action map and the root keys. -/
def analyzeGraph (analyzers : List Analyzer) (pkgs : List Package) :
    ActionMap × List ActionKey :=
  let m := analyzers.foldl
    (fun acc a => pkgs.foldl
      (fun acc2 pkg => markRoot (mkAction pkgs a pkg acc2) (a, pkg)) acc) []
  (m, analyzers.flatMap (fun a => pkgs.map (fun pkg => (a, pkg))))

/-! ### Diagnostic extraction model (runner.go, `extractDiagnostics`) -/

/-- An `analysis.Diagnostic` as the extractor sees it: a position token and
a message. -/
structure Diag where
  pos : Nat
  message : String
deriving DecidableEq

/-- A materialized `token.Position`: `act.pkg.Fset.Position(diag.Pos)` is
modelled as the pair (file-set name of the action's package, position
token). -/
abbrev Position := String × Nat

/-- The dedup key of `extractDiagnostics`: `(token.Position, analyzer,
message)`; the analyzer is identified by name. -/
abbrev DKey := Position × String × String

/-- A returned `Diagnostic`: the underlying diagnostic's message, the
producing analyzer, and the materialized position. -/
structure DiagOut where
  position : Position
  analyzer : String
  message : String
deriving DecidableEq

def DiagOut.key (d : DiagOut) : DKey := (d.position, d.analyzer, d.message)

/-- An action as the extractor sees it: analyzer name, file set of its
package, root flag, error, recorded diagnostics, dependency actions. -/
inductive ActionTree where
  | mk (aName : String) (fset : String) (isroot : Bool) (err : Option String)
       (diags : List Diag) (deps : List ActionTree)

def ActionTree.aName : ActionTree → String
  | .mk n _ _ _ _ _ => n

def ActionTree.fset : ActionTree → String
  | .mk _ f _ _ _ _ => f

def ActionTree.isroot : ActionTree → Bool
  | .mk _ _ r _ _ _ => r

def ActionTree.err : ActionTree → Option String
  | .mk _ _ _ e _ _ => e

def ActionTree.diags : ActionTree → List Diag
  | .mk _ _ _ _ d _ => d

def ActionTree.deps : ActionTree → List ActionTree
  | .mk _ _ _ _ _ d => d

def ActionTree.decEq : (a b : ActionTree) → Decidable (a = b)
  | .mk n1 f1 r1 e1 g1 d1, .mk n2 f2 r2 e2 g2 d2 =>
    match String.decEq n1 n2, String.decEq f1 f2, instDecidableEqBool r1 r2,
          (inferInstanceAs (DecidableEq (Option String))) e1 e2,
          (inferInstanceAs (DecidableEq (List Diag))) g1 g2, goList d1 d2 with
    | isTrue h1, isTrue h2, isTrue h3, isTrue h4, isTrue h5, isTrue h6 =>
      isTrue (by rw [h1, h2, h3, h4, h5, h6])
    | isFalse h1, _, _, _, _, _ => isFalse (fun he => by cases he; exact h1 rfl)
    | _, isFalse h2, _, _, _, _ => isFalse (fun he => by cases he; exact h2 rfl)
    | _, _, isFalse h3, _, _, _ => isFalse (fun he => by cases he; exact h3 rfl)
    | _, _, _, isFalse h4, _, _ => isFalse (fun he => by cases he; exact h4 rfl)
    | _, _, _, _, isFalse h5, _ => isFalse (fun he => by cases he; exact h5 rfl)
    | _, _, _, _, _, isFalse h6 => isFalse (fun he => by cases he; exact h6 rfl)
where goList : (a b : List ActionTree) → Decidable (a = b)
  | [], [] => isTrue rfl
  | [], _ :: _ => isFalse (fun he => by cases he)
  | _ :: _, [] => isFalse (fun he => by cases he)
  | x :: xs, y :: ys =>
    match ActionTree.decEq x y, goList xs ys with
    | isTrue h1, isTrue h2 => isTrue (by rw [h1, h2])
    | isFalse h1, _ => isFalse (fun he => by cases he; exact h1 rfl)
    | _, isFalse h2 => isFalse (fun he => by cases he; exact h2 rfl)

instance : DecidableEq ActionTree := ActionTree.decEq

/-- The mutable state of `extractDiagnostics`: the `extracted` visited set,
the `seen` dedup set, and the two output accumulators. -/
structure ExtractState where
  extracted : List ActionTree
  seen : List DKey
  diags : List DiagOut
  errs : List String
deriving DecidableEq

/-- One iteration of the diagnostic loop in `extract`: materialize the
position, drop the diagnostic if its key was seen, otherwise record the key
and append the diagnostic. -/
def processDiag (aName fsetName : String) (st : ExtractState) (d : Diag) :
    ExtractState :=
  let posn : Position := (fsetName, d.pos)
  let k : DKey := (posn, aName, d.message)
  if k ∈ st.seen then st
  else { st with
          seen := k :: st.seen
          diags := st.diags ++ [{ position := posn, analyzer := aName,
                                  message := d.message }] }

/-- The `extract` closure: an action with a set error appends the wrapped
error (`errors.Wrap(act.err, act.a.Name)` prints as "name: err") and emits
nothing else; a root action without error runs the dedup loop over its
diagnostics; any other action contributes nothing. -/
def extractAct (act : ActionTree) (st : ExtractState) : ExtractState :=
  match act.err with
  | some e => { st with errs := st.errs ++ [act.aName ++ ": " ++ e] }
  | none =>
    if act.isroot then act.diags.foldl (processDiag act.aName act.fset) st
    else st

/-- The `visitAll` closure: post-order traversal, visiting each action at
most once (tracked in `extracted`). -/
def visitAll : List ActionTree → ExtractState → ExtractState
  | [], st => st
  | (ActionTree.mk n f r e g ds) :: rest, st =>
    let act := ActionTree.mk n f r e g ds
    let st1 :=
      if act ∈ st.extracted then st
      else extractAct act (visitAll ds { st with extracted := act :: st.extracted })
    visitAll rest st1
  termination_by acts _ => sizeOf acts

/-- `extractDiagnostics`: run the traversal from the roots and return the
deduplicated diagnostics and the error list. -/
def extractDiagnostics (roots : List ActionTree) : List DiagOut × List String :=
  let st := visitAll roots ⟨[], [], [], []⟩
  (st.diags, st.errs)

/-- First-occurrence deduplication by diagnostic key, written from the
spec: "First occurrence is emitted ...; subsequent duplicates are dropped."
Used to state what the seen-set loop of `extractDiagnostics` computes. -/
def dedupFirst (seen : List DKey) : List DiagOut → List DiagOut
  | [] => []
  | d :: ds =>
    if d.key ∈ seen then dedupFirst seen ds
    else d :: dedupFirst (d.key :: seen) ds

/-- The dedup-set contents after `dedupFirst seen l` has processed `l`,
mirroring how the `seen` map of `extractDiagnostics` grows. -/
def seenAfter (seen : List DKey) : List DiagOut → List DKey
  | [] => seen
  | d :: ds => seenAfter (if d.key ∈ seen then seen else d.key :: seen) ds

/-- State of the specification-side collector: same visited set, but
diagnostics are collected without deduplication. -/
structure CollectState where
  extracted : List ActionTree
  diags : List DiagOut
  errs : List String

/-- Specification-side per-action step: a set error is wrapped and appended
for every visited action (root or not); an error-free root contributes all
its diagnostics, positions materialized, without dedup. -/
def collectAct (act : ActionTree) (st : CollectState) : CollectState :=
  match act.err with
  | some e => { st with errs := st.errs ++ [act.aName ++ ": " ++ e] }
  | none =>
    if act.isroot then
      { st with diags := st.diags ++ act.diags.map (fun d =>
          { position := (act.fset, d.pos), analyzer := act.aName,
            message := d.message }) }
    else st

/-- Specification-side traversal, visiting exactly as `visitAll` does. -/
def collectAll : List ActionTree → CollectState → CollectState
  | [], st => st
  | (ActionTree.mk n f r e g ds) :: rest, st =>
    let act := ActionTree.mk n f r e g ds
    let st1 :=
      if act ∈ st.extracted then st
      else collectAct act (collectAll ds { st with extracted := act :: st.extracted })
    collectAll rest st1
  termination_by acts _ => sizeOf acts

/-- All diagnostics and errors the traversal encounters, in traversal
order, before deduplication. -/
def collectSpec (roots : List ActionTree) : CollectState :=
  collectAll roots ⟨[], [], []⟩

/-! ### Executor run-gating model (runner.go, `action.analyze`) -/

/-- What `action.analyze` reads from a dependency action: its display
string `a.Name + "@" + pkg.ID` (used in the failed-prerequisites message)
and its error. -/
structure DepState where
  str : String
  err : Option String
deriving DecidableEq

/-- The inputs determining the control flow of `action.analyze`: the
action's needs-source flag, its dependencies, the package ill-typed flag,
the analyzer's run-despite-errors flag, the outcome of `Analyzer.Run`
(external), whether the returned result has the declared result type, and
the name data used in error messages. -/
structure AnalyzeIn where
  needAnalyzeSource : Bool
  deps : List DepState
  illTyped : Bool
  runDespiteErrors : Bool
  runResult : Except String Unit
  resultTypeMatches : Bool
  pkgPath : String
  analyzerName : String
deriving DecidableEq

/-- Observables of `action.analyze`: whether `pass.Analyzer.Run` was
invoked, and the action's final error. -/
structure AnalyzeOut where
  invoked : Bool
  err : Option String
deriving DecidableEq

/-- `action.analyze`, with the concurrency (completion channels), timing
and fact plumbing projected away; the returned observables depend only on
the fields of `AnalyzeIn`.  The result-type-mismatch message abstracts the
`%v`-printed reflect types. -/
def analyze (i : AnalyzeIn) : AnalyzeOut :=
  if !i.needAnalyzeSource then { invoked := false, err := none }
  else
    let failed := (i.deps.filter (fun d => d.err.isSome)).map (fun d => d.str)
    if failed ≠ [] then
      { invoked := false
        err := some ("failed prerequisites: " ++
          String.intercalate ", " (List.insertionSort (· ≤ ·) failed)) }
    else if i.illTyped && !i.runDespiteErrors then
      { invoked := false, err := some "analysis skipped due to errors in package" }
    else
      { invoked := true
        err :=
          match i.runResult with
          | .error e => some e
          | .ok _ =>
            if !i.resultTypeMatches then
              some ("internal error: on package " ++ i.pkgPath ++ ", analyzer " ++
                i.analyzerName ++ " returned a result of an undeclared type")
            else none }

/-! ### Fact model (runner.go, facts machinery) -/

/-- The kind of a `types.Object`, as far as `exportedFrom` distinguishes
them: functions (with exported flag and receiver presence), variables (with
exported flag and field flag), type names, constants, and the rest (`Nil`,
builtins, labels, package names). -/
inductive ObjKind where
  | func (exported : Bool) (hasRecv : Bool)
  | varObj (exported : Bool) (isField : Bool)
  | typeName
  | constObj
  | other
deriving DecidableEq

/-- A `types.Object`: its kind, the path of its owning package
(`obj.Pkg()`), and the object path `objectpath.For(obj)` computes for it
(`none` when the object is not globally addressable). -/
structure Obj where
  kind : ObjKind
  pkg : String
  objPath : Option String
deriving DecidableEq

/-- `exportedFrom(obj, pkg)`: may `obj` be visible to an importer of
`pkg`? -/
def exportedFrom (obj : Obj) (pkg : String) : Bool :=
  match obj.kind with
  | .func exported hasRecv => (exported && obj.pkg == pkg) || hasRecv
  | .varObj exported isField => (exported && obj.pkg == pkg) || isField
  | .typeName => true
  | .constObj => true
  | .other => false

/-- An object-fact store: `map[objectFactKey]analysis.Fact` with
`objectFactKey = (obj, reflect.Type)`; the reflect type is its name, the
fact payload has type `F`. -/
abbrev ObjFacts (F : Type) := List ((Obj × String) × F)

/-- A package-fact store: `map[packageFactKey]analysis.Fact` with
`packageFactKey = (*types.Package, reflect.Type)`; packages are identified
by path. -/
abbrev PkgFacts (F : Type) := List ((String × String) × F)

/-- Map assignment `facts[key] = fact`: prepend, shadowing any old
binding. -/
def setFact {K F : Type} (facts : List (K × F)) (key : K) (fact : F) :
    List (K × F) := (key, fact) :: facts

/-- Association-list lookup for fact stores. -/
def getFact {K F : Type} [DecidableEq K] (facts : List (K × F)) (key : K) :
    Option F :=
  match facts with
  | [] => none
  | (k, f) :: rest => if k = key then some f else getFact rest key

/-- A persisted fact record (`type Fact struct { Path string; Fact
analysis.Fact }`); `ty` carries the reflect type that gob stores inside the
serialized fact value. -/
structure FactRec (F : Type) where
  path : String
  ty : String
  fact : F
deriving DecidableEq

/-- The action state `persistFactsToCache` reads: the analyzer's fact
types, the path of the action's own package (`act.pkg.Types`), and the two
fact stores. -/
structure PersistIn (F : Type) where
  factTypes : List String
  pkgPath : String
  packageFacts : PkgFacts F
  objectFacts : ObjFacts F
deriving DecidableEq

/-- `persistFactsToCache`: nothing is written when the analyzer has no
fact types (`none`); otherwise the written list contains the package facts
keyed by the action's own package (path `""`), then the object facts whose
object belongs to the action's package and has a computable object path;
facts failing a filter are skipped without error. -/
def persistFactsToCache {F : Type} (act : PersistIn F) :
    Option (List (FactRec F)) :=
  if act.factTypes = [] then none
  else some (
    (act.packageFacts.filterMap (fun kf =>
      if kf.1.1 = act.pkgPath then
        some { path := "", ty := kf.1.2, fact := kf.2 }
      else none)) ++
    (act.objectFacts.filterMap (fun kf =>
      if kf.1.1.pkg = act.pkgPath then
        (kf.1.1.objPath).map (fun p => { path := p, ty := kf.1.2, fact := kf.2 })
      else none)))

/-- The fact stores `inheritFacts` reads from the dependency, together with
the dependency package (`dep.pkg.Types`, as a path). -/
structure InheritDep (F : Type) where
  pkgPath : String
  objectFacts : ObjFacts F
  packageFacts : PkgFacts F

/-- The inheriting action's fact stores. -/
structure InheritAct (F : Type) where
  objectFacts : ObjFacts F
  packageFacts : PkgFacts F
deriving DecidableEq

/-- The object-fact loop of `inheritFacts`: drop facts whose object is not
`exportedFrom` the dependency package; when `serialize` is set, round-trip
the fact through the codec, a `none` outcome being the fatal
`log.Panicf` path; store into the inheriting action's map. -/
def inheritObjFacts {F : Type} (serialize : Bool) (codec : F → Option F)
    (depPkg : String) : ObjFacts F → ObjFacts F → Except String (ObjFacts F)
  | [], acc => .ok acc
  | (key, fact) :: rest, acc =>
    if !exportedFrom key.1 depPkg then
      inheritObjFacts serialize codec depPkg rest acc
    else if serialize then
      match codec fact with
      | none => .error "internal error: encoding of fact failed"
      | some f2 => inheritObjFacts serialize codec depPkg rest (setFact acc key f2)
    else inheritObjFacts serialize codec depPkg rest (setFact acc key fact)

/-- The package-fact loop of `inheritFacts`: unfiltered; same optional
round-trip. -/
def inheritPkgFacts {F : Type} (serialize : Bool) (codec : F → Option F) :
    PkgFacts F → PkgFacts F → Except String (PkgFacts F)
  | [], acc => .ok acc
  | (key, fact) :: rest, acc =>
    if serialize then
      match codec fact with
      | none => .error "internal error: encoding of fact failed"
      | some f2 => inheritPkgFacts serialize codec rest (setFact acc key f2)
    else inheritPkgFacts serialize codec rest (setFact acc key fact)

/-- `inheritFacts(act, dep)`.  The local flag is the literal `serialize :=
false` of the source.  `debugS` models whether the `s` letter is present in
the `GL_GOANALYSIS_DEBUG` environment variable; the function body never
consults it.  `codec` models `codeFact` (encode twice, compare, decode);
`none` stands for its error outcome. -/
def inheritFacts {F : Type} (debugS : Bool) (codec : F → Option F)
    (act : InheritAct F) (dep : InheritDep F) : Except String (InheritAct F) :=
  let serialize := false
  match inheritObjFacts serialize codec dep.pkgPath dep.objectFacts act.objectFacts with
  | .error e => .error e
  | .ok objFacts =>
    match inheritPkgFacts serialize codec dep.packageFacts act.packageFacts with
    | .error e => .error e
    | .ok pkgFacts => .ok { objectFacts := objFacts, packageFacts := pkgFacts }

/-- The action state `loadCachedFacts` reads and writes.  `pkgPath` is the
path of `act.pkg.Types`, the target of loaded package facts. -/
structure CachedFactsAct (F : Type) where
  isInitialPkg : Bool
  factTypes : List String
  loadCachedFactsDone : Bool
  loadCachedFactsOk : Bool
  pkgPath : String
  objectFacts : ObjFacts F
  packageFacts : PkgFacts F
deriving DecidableEq

/-- Result of a cached-facts load attempt: the updated action, the boolean
outcome, and whether the persistent cache was accessed. -/
structure CachedFactsOut (F : Type) where
  act : CachedFactsAct F
  ok : Bool
  cacheAccessed : Bool
deriving DecidableEq

/-- The loop of `loadPersistedFacts` installing one record: an empty path
is a package fact for the action's own package; otherwise resolve the
object path (`objectpath.Object`), skipping leniently on failure. -/
def installFacts {F : Type} (resolve : String → Option Obj)
    (act : CachedFactsAct F) : List (FactRec F) → CachedFactsAct F
  | [] => act
  | f :: rest =>
    if f.path = "" then
      installFacts resolve
        { act with packageFacts := setFact act.packageFacts (act.pkgPath, f.ty) f.fact }
        rest
    else
      match resolve f.path with
      | none => installFacts resolve act rest
      | some obj =>
        installFacts resolve
          { act with objectFacts := setFact act.objectFacts (obj, f.ty) f.fact }
          rest

/-- `loadPersistedFacts`: query the cache under the `<analyzer>/facts` key
(`cacheGet` is the outcome of `pkgCache.Get`; `none` covers both a miss and
a read failure, which differ only in logging); on success install every
record. -/
def loadPersistedFacts {F : Type} (resolve : String → Option Obj)
    (cacheGet : Option (List (FactRec F))) (act : CachedFactsAct F) :
    CachedFactsAct F × Bool :=
  match cacheGet with
  | none => (act, false)
  | some facts => (installFacts resolve act facts, true)

/-- `loadCachedFacts`: memoized via `loadCachedFactsDone` /
`loadCachedFactsOk`; initial packages and analyzers without fact types
succeed without touching the cache; otherwise defer to
`loadPersistedFacts`.  The third output reports whether the persistent
cache was consulted. -/
def loadCachedFacts {F : Type} (resolve : String → Option Obj)
    (cacheGet : Option (List (FactRec F))) (act : CachedFactsAct F) :
    CachedFactsOut F :=
  if act.loadCachedFactsDone then
    { act := act, ok := act.loadCachedFactsOk, cacheAccessed := false }
  else
    let res : CachedFactsAct F × Bool × Bool :=
      if act.isInitialPkg then (act, true, false)
      else if act.factTypes = [] then (act, true, false)
      else
        let r := loadPersistedFacts resolve cacheGet act
        (r.1, r.2, true)
    { act := { res.1 with loadCachedFactsDone := true, loadCachedFactsOk := res.2.1 }
      ok := res.2.1
      cacheAccessed := res.2.2 }

/-! ### `exportPackageFact` model (runner.go, `action.exportPackageFact`) -/

/-- What `exportPackageFact` touches: whether `pass.ExportPackageFact` is
still non-nil (reset after `Run`), the pass package (`act.pass.Pkg`, as a
path), the positions of the syntax files (`act.pass.Files`), and the
package-fact store. -/
structure ExportPkgFactAct (F : Type) where
  passOpen : Bool
  passPkgPath : String
  passFiles : List Nat
  packageFacts : PkgFacts F
deriving DecidableEq

/-- `exportPackageFact(fact)`: panic when called after `Run`; otherwise
store the fact under `(act.pass.Pkg, factType(fact))`, clobbering any
entry; then the `factsDebugf` call evaluates
`act.pkg.Fset.Position(act.pass.Files[0].Pos())` — Go evaluates call
arguments unconditionally, so an empty file list panics with an
out-of-range index whether or not the facts-debug flag `isFactsDebug` is
set.  The second component is the panic, if any. -/
def exportPackageFact {F : Type} (isFactsDebug : Bool) (fact : F) (ty : String)
    (act : ExportPkgFactAct F) : ExportPkgFactAct F × Option String :=
  if !act.passOpen then
    (act, some "Pass.ExportPackageFact called after Run")
  else
    let act2 := { act with
      packageFacts := setFact act.packageFacts (act.passPkgPath, ty) fact }
    match act.passFiles with
    | [] => (act2, some "index out of range")
    | _ :: _ => (act2, none)

/-! ### Loader model (runner.go, `loadingPackage.loadWithFacts`) -/

/-- The inputs deciding the control flow of `loadWithFacts`: the package
path (for the `unsafe` special case), whether type info is already
populated, the initial flag, and the outcomes of `loadFromExportData`, of
`loadFromSource` (both external I/O), and of the per-action cached-facts
loads (`true` iff some action's cached-facts load failed). -/
structure LoadIn where
  pkgPath : String
  typesInfoPresent : Bool
  isInitial : Bool
  exportLoad : Except String Unit
  sourceLoad : Except String Unit
  anyActionFactsLoadFailed : Bool
deriving DecidableEq

/-- Observables of `loadWithFacts`: the returned error, whether a source
load was attempted, and the `packages.Error` messages appended to
`pkg.Errors` by the export-data failure path. -/
structure LoadOut where
  err : Option String
  sourceAttempted : Bool
  appendedErrors : List String
deriving DecidableEq

def exceptErr {E A : Type} : Except E A → Option E
  | .error e => some e
  | .ok _ => none

/-- `loadWithFacts`, with the fact bookkeeping of the already-loaded branch
projected away (it returns nil there regardless).  In the export-data
failure branch the source load is attempted; its failure is returned
as-is, while on its success the original export error is returned wrapped
(`errors.Wrap` prints as "could not load export data: <err>") after
appending a matching `packages.Error`. -/
def loadWithFacts (i : LoadIn) : LoadOut :=
  if i.pkgPath = "unsafe" then
    { err := none, sourceAttempted := false, appendedErrors := [] }
  else if i.typesInfoPresent then
    { err := none, sourceAttempted := false, appendedErrors := [] }
  else if i.isInitial then
    { err := exceptErr i.sourceLoad, sourceAttempted := true, appendedErrors := [] }
  else
    match i.exportLoad with
    | .error e =>
      match i.sourceLoad with
      | .error srcErr =>
        { err := some srcErr, sourceAttempted := true, appendedErrors := [] }
      | .ok _ =>
        { err := some ("could not load export data: " ++ e)
          sourceAttempted := true
          appendedErrors := ["could not load export data: " ++ e] }
    | .ok _ =>
      if i.anyActionFactsLoadFailed then
        { err := exceptErr i.sourceLoad, sourceAttempted := true, appendedErrors := [] }
      else
        { err := none, sourceAttempted := false, appendedErrors := [] }

end GoAnalysis

namespace GoAnalysis

/-! ### Lemmas: list and size basics -/

theorem exists_append_cons {α : Type} (e : α) (X m : List α) (h : ∃ l, X = l ++ m) :
    ∃ l, (e :: X) = l ++ m := by
  obtain ⟨l, hl⟩ := h
  exact ⟨e :: l, by rw [hl, List.cons_append]⟩

theorem exists_append_trans {α : Type} (Y X m : List α) (h1 : ∃ l, Y = l ++ X)
    (h2 : ∃ l, X = l ++ m) : ∃ l, Y = l ++ m := by
  obtain ⟨l1, hl1⟩ := h1
  obtain ⟨l2, hl2⟩ := h2
  exact ⟨l1 ++ l2, by rw [hl1, hl2, List.append_assoc]⟩

theorem sizeOf_requiresList_lt (a : Analyzer) : sizeOf a.requiresList < sizeOf a := by
  cases a with | mk n r f => simp [Analyzer.requiresList] <;> omega

theorem sizeOf_imports_lt (pkg : Package) : sizeOf pkg.imports < sizeOf pkg := by
  cases pkg with | mk p i => simp [Package.imports] <;> omega

theorem sizeOf_head_lt_cons {α : Type} [SizeOf α] (x : α) (xs : List α) :
    sizeOf x < sizeOf (x :: xs) := by
  have := List.cons.sizeOf_spec x xs
  omega

theorem sizeOf_tail_lt_cons {α : Type} [SizeOf α] (x : α) (xs : List α) :
    sizeOf xs < sizeOf (x :: xs) := by
  have := List.cons.sizeOf_spec x xs
  omega

theorem sizeOf_lookupImport_lt (l : List (String × Package)) (p : String) (q : Package)
    (h : lookupImport l p = some q) : sizeOf q < sizeOf l := by
  induction l with
  | nil => simp [lookupImport] at h
  | cons hd tl ih =>
    rw [lookupImport] at h
    split at h
    · cases h
      have h1 := List.cons.sizeOf_spec hd tl
      have h2 := Prod.mk.sizeOf_spec hd.1 hd.2
      simp only [Prod.mk.eta] at h2
      omega
    · have h1 := ih h
      have h2 := List.cons.sizeOf_spec hd tl
      omega

theorem lookupImport_mem_keys (l : List (String × Package)) (p : String) (q : Package)
    (h : lookupImport l p = some q) : p ∈ l.map Prod.fst := by
  induction l with
  | nil => simp [lookupImport] at h
  | cons hd tl ih =>
    rw [lookupImport] at h
    split at h
    · rename_i heq
      simp [← heq]
    · simp [ih h]

theorem lookupAct_append_isSome (l m : ActionMap) (k : ActionKey)
    (h : (lookupAct m k).isSome) : (lookupAct (l ++ m) k).isSome := by
  induction l with
  | nil => simpa using h
  | cons e rest ih =>
    rw [List.cons_append, lookupAct]
    split
    · simp
    · exact ih

theorem lookupAct_cons_isSome (e : ActionKey × ActionData) (m : ActionMap) (k : ActionKey)
    (h : (lookupAct m k).isSome) : (lookupAct (e :: m) k).isSome := by
  rw [lookupAct]
  split
  · simp
  · exact h

theorem lookupAct_isSome_iff_mem (m : ActionMap) (k : ActionKey) :
    (lookupAct m k).isSome ↔ k ∈ m.map Prod.fst := by
  induction m with
  | nil => simp [lookupAct]
  | cons e rest ih =>
    rw [lookupAct, List.map_cons]
    constructor
    · intro h
      split at h
      · rename_i heq
        simp [← heq]
      · exact List.mem_cons_of_mem _ (ih.mp h)
    · intro h
      rcases List.mem_cons.mp h with h1 | h1
      · split
        · simp
        · rename_i hne
          exact absurd h1.symm hne
      · split
        · simp
        · exact ih.mpr h1

/-! ### Lemmas: the action map only grows -/

mutual

theorem mkAction_grow (init : List Package) (a : Analyzer) (pkg : Package) (m : ActionMap) :
    ∃ l, mkAction init a pkg m = l ++ m := by
  rw [mkAction]
  split
  · exact ⟨[], rfl⟩
  · by_cases hf : a.factTypes.isEmpty
    · simp only [hf, if_true]
      exact exists_append_cons _ _ _ (mkActionReqs_grow init a.requiresList pkg m)
    · simp only [hf, if_false]
      exact exists_append_cons _ _ _
        (exists_append_trans _ _ _
          (mkActionImps_grow init a (sortedImportPaths pkg) pkg.imports
            (mkActionReqs init a.requiresList pkg m))
          (mkActionReqs_grow init a.requiresList pkg m))
  termination_by (sizeOf a + sizeOf pkg, 0)
  decreasing_by
  · apply Prod.Lex.left
    have := sizeOf_requiresList_lt a
    omega
  · apply Prod.Lex.left
    have := sizeOf_imports_lt pkg
    omega
  · apply Prod.Lex.left
    have := sizeOf_requiresList_lt a
    omega

theorem mkActionReqs_grow (init : List Package) (reqs : List Analyzer) (pkg : Package)
    (m : ActionMap) : ∃ l, mkActionReqs init reqs pkg m = l ++ m := by
  match reqs with
  | [] => rw [mkActionReqs]; exact ⟨[], rfl⟩
  | req :: rest =>
    rw [mkActionReqs]
    exact exists_append_trans _ _ _
      (mkActionReqs_grow init rest pkg (mkAction init req pkg m))
      (mkAction_grow init req pkg m)
  termination_by (sizeOf reqs + sizeOf pkg, 0)
  decreasing_by
  · apply Prod.Lex.left
    have := sizeOf_tail_lt_cons req rest
    omega
  · apply Prod.Lex.left
    have := sizeOf_head_lt_cons req rest
    omega

theorem mkActionImps_grow (init : List Package) (a : Analyzer) (paths : List String)
    (imports : List (String × Package)) (m : ActionMap) :
    ∃ l, mkActionImps init a paths imports m = l ++ m := by
  match paths with
  | [] => rw [mkActionImps]; exact ⟨[], rfl⟩
  | path :: rest =>
    rw [mkActionImps]
    match hq : lookupImport imports path with
    | some q =>
      simp only [hq]
      exact exists_append_trans _ _ _
        (mkActionImps_grow init a rest imports (mkAction init a q m))
        (mkAction_grow init a q m)
    | none =>
      simp only [hq]
      exact mkActionImps_grow init a rest imports m
  termination_by (sizeOf a + sizeOf imports, sizeOf paths)
  decreasing_by
  · apply Prod.Lex.right
    have := sizeOf_tail_lt_cons path rest
    omega
  · apply Prod.Lex.left
    have := sizeOf_lookupImport_lt imports path q hq
    omega
  · apply Prod.Lex.right
    have := sizeOf_tail_lt_cons path rest
    omega

end

theorem mkAction_mono (init : List Package) (a : Analyzer) (pkg : Package) (m : ActionMap)
    (k : ActionKey) (h : (lookupAct m k).isSome) :
    (lookupAct (mkAction init a pkg m) k).isSome := by
  obtain ⟨l, hl⟩ := mkAction_grow init a pkg m
  rw [hl]
  exact lookupAct_append_isSome l m k h

theorem mkActionReqs_mono (init : List Package) (reqs : List Analyzer) (pkg : Package)
    (m : ActionMap) (k : ActionKey) (h : (lookupAct m k).isSome) :
    (lookupAct (mkActionReqs init reqs pkg m) k).isSome := by
  obtain ⟨l, hl⟩ := mkActionReqs_grow init reqs pkg m
  rw [hl]
  exact lookupAct_append_isSome l m k h

theorem mkActionImps_mono (init : List Package) (a : Analyzer) (paths : List String)
    (imports : List (String × Package)) (m : ActionMap) (k : ActionKey)
    (h : (lookupAct m k).isSome) :
    (lookupAct (mkActionImps init a paths imports m) k).isSome := by
  obtain ⟨l, hl⟩ := mkActionImps_grow init a paths imports m
  rw [hl]
  exact lookupAct_append_isSome l m k h


/-! ### Lemmas: every ensured key is present -/

mutual

theorem mkAction_mem (init : List Package) (a : Analyzer) (pkg : Package) (m : ActionMap) :
    (lookupAct (mkAction init a pkg m) (a, pkg)).isSome := by
  rw [mkAction]
  split
  · assumption
  · rw [lookupAct]
    simp
  termination_by (sizeOf a + sizeOf pkg, 0)

theorem mkActionReqs_mem (init : List Package) (reqs : List Analyzer) (pkg : Package)
    (m : ActionMap) :
    ∀ req ∈ reqs, (lookupAct (mkActionReqs init reqs pkg m) (req, pkg)).isSome := by
  match reqs with
  | [] => intro req h; simp at h
  | req0 :: rest =>
    intro req hmem
    rw [mkActionReqs]
    rcases List.mem_cons.mp hmem with h1 | h1
    · subst h1
      exact mkActionReqs_mono init rest pkg _ _ (mkAction_mem init req pkg m)
    · exact mkActionReqs_mem init rest pkg _ req h1
  termination_by (sizeOf reqs + sizeOf pkg, 0)
  decreasing_by
  all_goals
    first
    | (apply Prod.Lex.right
       try simp only [List.cons.sizeOf_spec]
       omega)
    | (apply Prod.Lex.left
       try simp only [List.cons.sizeOf_spec]
       first
       | omega
       | (have h9 := sizeOf_requiresList_lt a; omega)
       | (have h9 := sizeOf_imports_lt pkg; omega)
       | (have h9 := sizeOf_lookupImport_lt _ _ _ (by assumption); omega))
theorem mkActionImps_mem (init : List Package) (a : Analyzer) (paths : List String)
    (imports : List (String × Package)) (m : ActionMap) :
    ∀ path ∈ paths, ∀ q, lookupImport imports path = some q →
      (lookupAct (mkActionImps init a paths imports m) (a, q)).isSome := by
  match paths with
  | [] => intro path h; simp at h
  | path0 :: rest =>
    intro path hmem q hq
    rw [mkActionImps]
    rcases List.mem_cons.mp hmem with h1 | h1
    · rw [h1] at hq
      rw [hq]
      exact mkActionImps_mono init a rest imports _ _ (mkAction_mem init a q m)
    · match hq0 : lookupImport imports path0 with
      | some q0 =>
        simp only [hq0]
        exact mkActionImps_mem init a rest imports _ path h1 q hq
      | none =>
        simp only [hq0]
        exact mkActionImps_mem init a rest imports _ path h1 q hq
  termination_by (sizeOf a + sizeOf imports, sizeOf paths)
  decreasing_by
  all_goals
    first
    | (apply Prod.Lex.right
       try simp only [List.cons.sizeOf_spec]
       omega)
    | (apply Prod.Lex.left
       try simp only [List.cons.sizeOf_spec]
       first
       | omega
       | (have h9 := sizeOf_requiresList_lt a; omega)
       | (have h9 := sizeOf_imports_lt pkg; omega)
       | (have h9 := sizeOf_lookupImport_lt _ _ _ (by assumption); omega))
end

/-! ### Lemmas: every stored action has the canonical dependency list -/

mutual

theorem mkAction_wf (init : List Package) (a : Analyzer) (pkg : Package) (m : ActionMap)
    (hwf : ∀ k d, lookupAct m k = some d → d.deps = depsOf k.1 k.2) :
    ∀ k d, lookupAct (mkAction init a pkg m) k = some d → d.deps = depsOf k.1 k.2 := by
  rw [mkAction]
  split
  · exact hwf
  · by_cases hf : a.factTypes.isEmpty
    · simp only [hf, if_true]
      intro k d h
      rw [lookupAct] at h
      split at h
      · rename_i heq
        cases h
        cases heq
        simp [depsOf]
      · exact mkActionReqs_wf init a.requiresList pkg m hwf k d h
    · simp only [hf, if_false]
      intro k d h
      rw [lookupAct] at h
      split at h
      · rename_i heq
        cases h
        cases heq
        simp [depsOf]
      · exact mkActionImps_wf init a (sortedImportPaths pkg) pkg.imports _
          (mkActionReqs_wf init a.requiresList pkg m hwf) k d h
  termination_by (sizeOf a + sizeOf pkg, 0)
  decreasing_by
  all_goals
    first
    | (apply Prod.Lex.right
       try simp only [List.cons.sizeOf_spec]
       omega)
    | (apply Prod.Lex.left
       try simp only [List.cons.sizeOf_spec]
       first
       | omega
       | (have h9 := sizeOf_requiresList_lt a; omega)
       | (have h9 := sizeOf_imports_lt pkg; omega)
       | (have h9 := sizeOf_lookupImport_lt _ _ _ (by assumption); omega))
theorem mkActionReqs_wf (init : List Package) (reqs : List Analyzer) (pkg : Package)
    (m : ActionMap)
    (hwf : ∀ k d, lookupAct m k = some d → d.deps = depsOf k.1 k.2) :
    ∀ k d, lookupAct (mkActionReqs init reqs pkg m) k = some d →
      d.deps = depsOf k.1 k.2 := by
  match reqs with
  | [] => rw [mkActionReqs]; exact hwf
  | req0 :: rest =>
    rw [mkActionReqs]
    exact mkActionReqs_wf init rest pkg _ (mkAction_wf init req0 pkg m hwf)
  termination_by (sizeOf reqs + sizeOf pkg, 0)
  decreasing_by
  all_goals
    first
    | (apply Prod.Lex.right
       try simp only [List.cons.sizeOf_spec]
       omega)
    | (apply Prod.Lex.left
       try simp only [List.cons.sizeOf_spec]
       first
       | omega
       | (have h9 := sizeOf_requiresList_lt a; omega)
       | (have h9 := sizeOf_imports_lt pkg; omega)
       | (have h9 := sizeOf_lookupImport_lt _ _ _ (by assumption); omega))
theorem mkActionImps_wf (init : List Package) (a : Analyzer) (paths : List String)
    (imports : List (String × Package)) (m : ActionMap)
    (hwf : ∀ k d, lookupAct m k = some d → d.deps = depsOf k.1 k.2) :
    ∀ k d, lookupAct (mkActionImps init a paths imports m) k = some d →
      d.deps = depsOf k.1 k.2 := by
  match paths with
  | [] => rw [mkActionImps]; exact hwf
  | path0 :: rest =>
    rw [mkActionImps]
    match hq0 : lookupImport imports path0 with
    | some q0 =>
      simp only [hq0]
      exact mkActionImps_wf init a rest imports _ (mkAction_wf init a q0 m hwf)
    | none =>
      simp only [hq0]
      exact mkActionImps_wf init a rest imports _ hwf
  termination_by (sizeOf a + sizeOf imports, sizeOf paths)
  decreasing_by
  all_goals
    first
    | (apply Prod.Lex.right
       try simp only [List.cons.sizeOf_spec]
       omega)
    | (apply Prod.Lex.left
       try simp only [List.cons.sizeOf_spec]
       first
       | omega
       | (have h9 := sizeOf_requiresList_lt a; omega)
       | (have h9 := sizeOf_imports_lt pkg; omega)
       | (have h9 := sizeOf_lookupImport_lt _ _ _ (by assumption); omega))
end


/-! ### Lemmas: keys created by the builder are size-bounded (no overwrite) -/

mutual

theorem mkAction_keys (init : List Package) (a : Analyzer) (pkg : Package) (m : ActionMap) :
    ∀ k, (lookupAct (mkAction init a pkg m) k).isSome →
      (lookupAct m k).isSome ∨ sizeOf k.1 + sizeOf k.2 ≤ sizeOf a + sizeOf pkg := by
  rw [mkAction]
  split
  · intro k h
    exact Or.inl h
  · by_cases hf : a.factTypes.isEmpty
    · simp only [hf, if_true]
      intro k h
      rw [lookupAct] at h
      split at h
      · rename_i heq
        cases heq
        exact Or.inr (by simp)
      · rcases mkActionReqs_keys init a.requiresList pkg m k h with h1 | ⟨req, hreq, h1⟩
        · exact Or.inl h1
        · have h2 := List.sizeOf_lt_of_mem hreq
          have h3 := sizeOf_requiresList_lt a
          exact Or.inr (by omega)
    · simp only [hf, if_false]
      intro k h
      rw [lookupAct] at h
      split at h
      · rename_i heq
        cases heq
        exact Or.inr (by simp)
      · rcases mkActionImps_keys init a (sortedImportPaths pkg) pkg.imports _ k h with
          h1 | ⟨q, ⟨path, _, hpq⟩, h1⟩
        · rcases mkActionReqs_keys init a.requiresList pkg m k h1 with h2 | ⟨req, hreq, h2⟩
          · exact Or.inl h2
          · have h3 := List.sizeOf_lt_of_mem hreq
            have h4 := sizeOf_requiresList_lt a
            exact Or.inr (by omega)
        · have h2 := sizeOf_lookupImport_lt _ _ _ hpq
          have h3 := sizeOf_imports_lt pkg
          exact Or.inr (by omega)
  termination_by (sizeOf a + sizeOf pkg, 0)
  decreasing_by
  all_goals
    first
    | (apply Prod.Lex.right
       try simp only [List.cons.sizeOf_spec]
       omega)
    | (apply Prod.Lex.left
       try simp only [List.cons.sizeOf_spec]
       first
       | omega
       | (have h9 := sizeOf_requiresList_lt a; omega)
       | (have h9 := sizeOf_imports_lt pkg; omega)
       | (have h9 := sizeOf_lookupImport_lt _ _ _ (by assumption); omega))
theorem mkActionReqs_keys (init : List Package) (reqs : List Analyzer) (pkg : Package)
    (m : ActionMap) :
    ∀ k, (lookupAct (mkActionReqs init reqs pkg m) k).isSome →
      (lookupAct m k).isSome ∨
        ∃ req, req ∈ reqs ∧ sizeOf k.1 + sizeOf k.2 ≤ sizeOf req + sizeOf pkg := by
  match reqs with
  | [] => intro k h; rw [mkActionReqs] at h; exact Or.inl h
  | req0 :: rest =>
    intro k h
    rw [mkActionReqs] at h
    rcases mkActionReqs_keys init rest pkg _ k h with h1 | ⟨req, hreq, h1⟩
    · rcases mkAction_keys init req0 pkg m k h1 with h2 | h2
      · exact Or.inl h2
      · exact Or.inr ⟨req0, List.mem_cons_self req0 rest, h2⟩
    · exact Or.inr ⟨req, List.mem_cons_of_mem _ hreq, h1⟩
  termination_by (sizeOf reqs + sizeOf pkg, 0)
  decreasing_by
  all_goals
    first
    | (apply Prod.Lex.right
       try simp only [List.cons.sizeOf_spec]
       omega)
    | (apply Prod.Lex.left
       try simp only [List.cons.sizeOf_spec]
       first
       | omega
       | (have h9 := sizeOf_requiresList_lt a; omega)
       | (have h9 := sizeOf_imports_lt pkg; omega)
       | (have h9 := sizeOf_lookupImport_lt _ _ _ (by assumption); omega))
theorem mkActionImps_keys (init : List Package) (a : Analyzer) (paths : List String)
    (imports : List (String × Package)) (m : ActionMap) :
    ∀ k, (lookupAct (mkActionImps init a paths imports m) k).isSome →
      (lookupAct m k).isSome ∨
        ∃ q, (∃ path, path ∈ paths ∧ lookupImport imports path = some q) ∧
          sizeOf k.1 + sizeOf k.2 ≤ sizeOf a + sizeOf q := by
  match paths with
  | [] => intro k h; rw [mkActionImps] at h; exact Or.inl h
  | path0 :: rest =>
    intro k h
    rw [mkActionImps] at h
    match hq0 : lookupImport imports path0 with
    | some q0 =>
      rw [hq0] at h
      rcases mkActionImps_keys init a rest imports _ k h with h1 | ⟨q, ⟨path, hp, hpq⟩, h1⟩
      · rcases mkAction_keys init a q0 m k h1 with h2 | h2
        · exact Or.inl h2
        · exact Or.inr ⟨q0, ⟨path0, List.mem_cons_self path0 rest, hq0⟩, h2⟩
      · exact Or.inr ⟨q, ⟨path, List.mem_cons_of_mem _ hp, hpq⟩, h1⟩
    | none =>
      rw [hq0] at h
      rcases mkActionImps_keys init a rest imports _ k h with h1 | ⟨q, ⟨path, hp, hpq⟩, h1⟩
      · exact Or.inl h1
      · exact Or.inr ⟨q, ⟨path, List.mem_cons_of_mem _ hp, hpq⟩, h1⟩
  termination_by (sizeOf a + sizeOf imports, sizeOf paths)
  decreasing_by
  all_goals
    first
    | (apply Prod.Lex.right
       try simp only [List.cons.sizeOf_spec]
       omega)
    | (apply Prod.Lex.left
       try simp only [List.cons.sizeOf_spec]
       first
       | omega
       | (have h9 := sizeOf_requiresList_lt a; omega)
       | (have h9 := sizeOf_imports_lt pkg; omega)
       | (have h9 := sizeOf_lookupImport_lt _ _ _ (by assumption); omega))
end

/-! ### Lemmas: the key list stays duplicate-free -/

mutual

theorem mkAction_nodup (init : List Package) (a : Analyzer) (pkg : Package) (m : ActionMap)
    (hnd : (m.map Prod.fst).Nodup) :
    ((mkAction init a pkg m).map Prod.fst).Nodup := by
  rw [mkAction]
  split
  · exact hnd
  · rename_i hno
    by_cases hf : a.factTypes.isEmpty
    · simp only [hf, if_true]
      rw [List.map_cons, List.nodup_cons]
      refine ⟨?_, mkActionReqs_nodup init a.requiresList pkg m hnd⟩
      intro hmem
      have h1 := (lookupAct_isSome_iff_mem _ _).mpr hmem
      rcases mkActionReqs_keys init a.requiresList pkg m _ h1 with h2 | ⟨req, hreq, h2⟩
      · exact hno h2
      · have h3 := List.sizeOf_lt_of_mem hreq
        have h4 := sizeOf_requiresList_lt a
        simp only at h2
        omega
    · simp only [hf, if_false]
      rw [List.map_cons, List.nodup_cons]
      refine ⟨?_, mkActionImps_nodup init a (sortedImportPaths pkg) pkg.imports _
        (mkActionReqs_nodup init a.requiresList pkg m hnd)⟩
      intro hmem
      have h1 := (lookupAct_isSome_iff_mem _ _).mpr hmem
      rcases mkActionImps_keys init a (sortedImportPaths pkg) pkg.imports _ _ h1 with
        h2 | ⟨q, ⟨path, _, hpq⟩, h2⟩
      · rcases mkActionReqs_keys init a.requiresList pkg m _ h2 with h3 | ⟨req, hreq, h3⟩
        · exact hno h3
        · have h4 := List.sizeOf_lt_of_mem hreq
          have h5 := sizeOf_requiresList_lt a
          simp only at h3
          omega
      · have h3 := sizeOf_lookupImport_lt _ _ _ hpq
        have h4 := sizeOf_imports_lt pkg
        simp only at h2
        omega
  termination_by (sizeOf a + sizeOf pkg, 0)
  decreasing_by
  all_goals
    first
    | (apply Prod.Lex.right
       try simp only [List.cons.sizeOf_spec]
       omega)
    | (apply Prod.Lex.left
       try simp only [List.cons.sizeOf_spec]
       first
       | omega
       | (have h9 := sizeOf_requiresList_lt a; omega)
       | (have h9 := sizeOf_imports_lt pkg; omega)
       | (have h9 := sizeOf_lookupImport_lt _ _ _ (by assumption); omega))
theorem mkActionReqs_nodup (init : List Package) (reqs : List Analyzer) (pkg : Package)
    (m : ActionMap) (hnd : (m.map Prod.fst).Nodup) :
    ((mkActionReqs init reqs pkg m).map Prod.fst).Nodup := by
  match reqs with
  | [] => rw [mkActionReqs]; exact hnd
  | req0 :: rest =>
    rw [mkActionReqs]
    exact mkActionReqs_nodup init rest pkg _ (mkAction_nodup init req0 pkg m hnd)
  termination_by (sizeOf reqs + sizeOf pkg, 0)
  decreasing_by
  all_goals
    first
    | (apply Prod.Lex.right
       try simp only [List.cons.sizeOf_spec]
       omega)
    | (apply Prod.Lex.left
       try simp only [List.cons.sizeOf_spec]
       first
       | omega
       | (have h9 := sizeOf_requiresList_lt a; omega)
       | (have h9 := sizeOf_imports_lt pkg; omega)
       | (have h9 := sizeOf_lookupImport_lt _ _ _ (by assumption); omega))
theorem mkActionImps_nodup (init : List Package) (a : Analyzer) (paths : List String)
    (imports : List (String × Package)) (m : ActionMap)
    (hnd : (m.map Prod.fst).Nodup) :
    ((mkActionImps init a paths imports m).map Prod.fst).Nodup := by
  match paths with
  | [] => rw [mkActionImps]; exact hnd
  | path0 :: rest =>
    rw [mkActionImps]
    match hq0 : lookupImport imports path0 with
    | some q0 =>
      first
      | rw [hq0]
      | simp only [hq0]
      exact mkActionImps_nodup init a rest imports _ (mkAction_nodup init a q0 m hnd)
    | none =>
      first
      | rw [hq0]
      | simp only [hq0]
      exact mkActionImps_nodup init a rest imports _ hnd
  termination_by (sizeOf a + sizeOf imports, sizeOf paths)
  decreasing_by
  all_goals
    first
    | (apply Prod.Lex.right
       try simp only [List.cons.sizeOf_spec]
       omega)
    | (apply Prod.Lex.left
       try simp only [List.cons.sizeOf_spec]
       first
       | omega
       | (have h9 := sizeOf_requiresList_lt a; omega)
       | (have h9 := sizeOf_imports_lt pkg; omega)
       | (have h9 := sizeOf_lookupImport_lt _ _ _ (by assumption); omega))
end


/-! ### Lemmas: the canonical dependency list, analyzed -/

theorem depsOf_cases (a : Analyzer) (pkg : Package) (k2 : ActionKey)
    (h : k2 ∈ depsOf a pkg) :
    (∃ req, req ∈ a.requiresList ∧ k2 = (req, pkg)) ∨
    (a.factTypes.isEmpty = false ∧ ∃ path q, path ∈ sortedImportPaths pkg ∧
      lookupImport pkg.imports path = some q ∧ k2 = (a, q)) := by
  rw [depsOf] at h
  rcases List.mem_append.mp h with h1 | h1
  · obtain ⟨req, hreq, heq⟩ := List.mem_map.mp h1
    exact Or.inl ⟨req, hreq, heq.symm⟩
  · by_cases hf : a.factTypes.isEmpty
    · simp only [hf, if_true] at h1
      simp at h1
    · simp only [hf, if_false] at h1
      obtain ⟨path, hp, hmap⟩ := List.mem_filterMap.mp h1
      cases hq : lookupImport pkg.imports path with
      | none => rw [hq] at hmap; simp at hmap
      | some q =>
        rw [hq] at hmap
        first
        | simp only [Option.map_some] at hmap
        | simp only [Option.map_some'] at hmap
        cases hmap
        exact Or.inr ⟨by simpa using hf, path, q, hp, hq, rfl⟩

/-! ### Lemmas: dependencies of stored actions are themselves stored -/

mutual

theorem mkAction_closed (init : List Package) (a : Analyzer) (pkg : Package) (m : ActionMap)
    (hcl : ∀ k d, lookupAct m k = some d → ∀ k2 ∈ d.deps, (lookupAct m k2).isSome) :
    ∀ k d, lookupAct (mkAction init a pkg m) k = some d →
      ∀ k2 ∈ d.deps, (lookupAct (mkAction init a pkg m) k2).isSome := by
  rw [mkAction]
  split
  · exact hcl
  · by_cases hf : a.factTypes.isEmpty
    · simp only [hf, if_true]
      intro k d h k2 hk2
      rw [lookupAct] at h
      split at h
      · cases h
        rcases depsOf_cases a pkg k2 hk2 with ⟨req, hreq, heq⟩ | ⟨hfalse, _⟩
        · subst heq
          exact lookupAct_cons_isSome _ _ _
            (mkActionReqs_mem init a.requiresList pkg m req hreq)
        · rw [hf] at hfalse
          cases hfalse
      · exact lookupAct_cons_isSome _ _ _
          (mkActionReqs_closed init a.requiresList pkg m hcl k d h k2 hk2)
    · simp only [hf, if_false]
      intro k d h k2 hk2
      rw [lookupAct] at h
      split at h
      · cases h
        rcases depsOf_cases a pkg k2 hk2 with ⟨req, hreq, heq⟩ |
          ⟨_, path, q, hps, hpq, heq⟩
        · subst heq
          exact lookupAct_cons_isSome _ _ _
            (mkActionImps_mono init a (sortedImportPaths pkg) pkg.imports _ _
              (mkActionReqs_mem init a.requiresList pkg m req hreq))
        · subst heq
          exact lookupAct_cons_isSome _ _ _
            (mkActionImps_mem init a (sortedImportPaths pkg) pkg.imports _ path hps q hpq)
      · exact lookupAct_cons_isSome _ _ _
          (mkActionImps_closed init a (sortedImportPaths pkg) pkg.imports _
            (mkActionReqs_closed init a.requiresList pkg m hcl) k d h k2 hk2)
  termination_by (sizeOf a + sizeOf pkg, 0)
  decreasing_by
  all_goals
    first
    | (apply Prod.Lex.right
       try simp only [List.cons.sizeOf_spec]
       omega)
    | (apply Prod.Lex.left
       try simp only [List.cons.sizeOf_spec]
       first
       | omega
       | (have h9 := sizeOf_requiresList_lt a; omega)
       | (have h9 := sizeOf_imports_lt pkg; omega)
       | (have h9 := sizeOf_lookupImport_lt _ _ _ (by assumption); omega))
theorem mkActionReqs_closed (init : List Package) (reqs : List Analyzer) (pkg : Package)
    (m : ActionMap)
    (hcl : ∀ k d, lookupAct m k = some d → ∀ k2 ∈ d.deps, (lookupAct m k2).isSome) :
    ∀ k d, lookupAct (mkActionReqs init reqs pkg m) k = some d →
      ∀ k2 ∈ d.deps, (lookupAct (mkActionReqs init reqs pkg m) k2).isSome := by
  match reqs with
  | [] => rw [mkActionReqs]; exact hcl
  | req0 :: rest =>
    rw [mkActionReqs]
    exact mkActionReqs_closed init rest pkg _ (mkAction_closed init req0 pkg m hcl)
  termination_by (sizeOf reqs + sizeOf pkg, 0)
  decreasing_by
  all_goals
    first
    | (apply Prod.Lex.right
       try simp only [List.cons.sizeOf_spec]
       omega)
    | (apply Prod.Lex.left
       try simp only [List.cons.sizeOf_spec]
       first
       | omega
       | (have h9 := sizeOf_requiresList_lt a; omega)
       | (have h9 := sizeOf_imports_lt pkg; omega)
       | (have h9 := sizeOf_lookupImport_lt _ _ _ (by assumption); omega))
theorem mkActionImps_closed (init : List Package) (a : Analyzer) (paths : List String)
    (imports : List (String × Package)) (m : ActionMap)
    (hcl : ∀ k d, lookupAct m k = some d → ∀ k2 ∈ d.deps, (lookupAct m k2).isSome) :
    ∀ k d, lookupAct (mkActionImps init a paths imports m) k = some d →
      ∀ k2 ∈ d.deps, (lookupAct (mkActionImps init a paths imports m) k2).isSome := by
  match paths with
  | [] => rw [mkActionImps]; exact hcl
  | path0 :: rest =>
    rw [mkActionImps]
    match hq0 : lookupImport imports path0 with
    | some q0 =>
      first
      | rw [hq0]
      | simp only [hq0]
      exact mkActionImps_closed init a rest imports _ (mkAction_closed init a q0 m hcl)
    | none =>
      first
      | rw [hq0]
      | simp only [hq0]
      exact mkActionImps_closed init a rest imports _ hcl
  termination_by (sizeOf a + sizeOf imports, sizeOf paths)
  decreasing_by
  all_goals
    first
    | (apply Prod.Lex.right
       try simp only [List.cons.sizeOf_spec]
       omega)
    | (apply Prod.Lex.left
       try simp only [List.cons.sizeOf_spec]
       first
       | omega
       | (have h9 := sizeOf_requiresList_lt a; omega)
       | (have h9 := sizeOf_imports_lt pkg; omega)
       | (have h9 := sizeOf_lookupImport_lt _ _ _ (by assumption); omega))
end


/-! ### Lemmas: `markRoot` only flips the root flag -/

theorem markRoot_entry_fst (e : ActionKey × ActionData) (k0 : ActionKey) :
    (if e.1 = k0 then (e.1, { e.2 with isroot := true }) else e).1 = e.1 := by
  split <;> rfl

theorem markRoot_keys (m : ActionMap) (k0 : ActionKey) :
    (markRoot m k0).map Prod.fst = m.map Prod.fst := by
  induction m with
  | nil => rfl
  | cons e rest ih =>
    rw [markRoot, List.map_cons, List.map_cons, List.map_cons]
    rw [markRoot] at ih
    rw [ih, markRoot_entry_fst]

theorem markRoot_isSome (m : ActionMap) (k0 k : ActionKey) :
    (lookupAct (markRoot m k0) k).isSome ↔ (lookupAct m k).isSome := by
  rw [lookupAct_isSome_iff_mem, lookupAct_isSome_iff_mem, markRoot_keys]

theorem markRoot_lookup (m : ActionMap) (k0 k : ActionKey) (d : ActionData)
    (h : lookupAct (markRoot m k0) k = some d) :
    ∃ d0, lookupAct m k = some d0 ∧ d.deps = d0.deps ∧
      d.isInitialPkg = d0.isInitialPkg := by
  induction m with
  | nil => rw [markRoot] at h; simp [lookupAct] at h
  | cons e rest ih =>
    rw [markRoot, List.map_cons] at h
    rw [lookupAct] at h
    simp only [markRoot_entry_fst] at h
    rw [lookupAct]
    split at h
    · rename_i heq
      rw [if_pos heq]
      cases h
      refine ⟨e.2, rfl, ?_, ?_⟩ <;> (split <;> rfl)
    · rename_i hne
      rw [if_neg hne]
      exact ih (by rw [markRoot]; exact h)

/-! ### Lemmas: invariants of the full graph-construction loop -/

theorem step_deps_wf (pkgs0 : List Package) (a : Analyzer) (pkg : Package) (m : ActionMap)
    (hwf : ∀ k d, lookupAct m k = some d → d.deps = depsOf k.1 k.2) :
    ∀ k d, lookupAct (markRoot (mkAction pkgs0 a pkg m) (a, pkg)) k = some d →
      d.deps = depsOf k.1 k.2 := by
  intro k d h
  obtain ⟨d0, h0, hdeps, _⟩ := markRoot_lookup _ _ _ _ h
  rw [hdeps]
  exact mkAction_wf pkgs0 a pkg m hwf k d0 h0

theorem step_closed (pkgs0 : List Package) (a : Analyzer) (pkg : Package) (m : ActionMap)
    (hcl : ∀ k d, lookupAct m k = some d → ∀ k2 ∈ d.deps, (lookupAct m k2).isSome) :
    ∀ k d, lookupAct (markRoot (mkAction pkgs0 a pkg m) (a, pkg)) k = some d →
      ∀ k2 ∈ d.deps, (lookupAct (markRoot (mkAction pkgs0 a pkg m) (a, pkg)) k2).isSome := by
  intro k d h k2 hk2
  obtain ⟨d0, h0, hdeps, _⟩ := markRoot_lookup _ _ _ _ h
  rw [markRoot_isSome]
  exact mkAction_closed pkgs0 a pkg m hcl k d0 h0 k2 (by rw [← hdeps]; exact hk2)

theorem step_nodup (pkgs0 : List Package) (a : Analyzer) (pkg : Package) (m : ActionMap)
    (hnd : (m.map Prod.fst).Nodup) :
    ((markRoot (mkAction pkgs0 a pkg m) (a, pkg)).map Prod.fst).Nodup := by
  rw [markRoot_keys]
  exact mkAction_nodup pkgs0 a pkg m hnd

theorem step_mono (pkgs0 : List Package) (a : Analyzer) (pkg : Package) (m : ActionMap)
    (k : ActionKey) (h : (lookupAct m k).isSome) :
    (lookupAct (markRoot (mkAction pkgs0 a pkg m) (a, pkg)) k).isSome := by
  rw [markRoot_isSome]
  exact mkAction_mono pkgs0 a pkg m k h

theorem foldl_pkgs_inv (pkgs0 : List Package) (a : Analyzer) :
    ∀ (pkgs : List Package) (m : ActionMap),
      ((∀ k d, lookupAct m k = some d → d.deps = depsOf k.1 k.2) ∧
       (∀ k d, lookupAct m k = some d → ∀ k2 ∈ d.deps, (lookupAct m k2).isSome) ∧
       (m.map Prod.fst).Nodup) →
      ((∀ k d, lookupAct
          (pkgs.foldl (fun acc2 pkg => markRoot (mkAction pkgs0 a pkg acc2) (a, pkg)) m)
          k = some d → d.deps = depsOf k.1 k.2) ∧
       (∀ k d, lookupAct
          (pkgs.foldl (fun acc2 pkg => markRoot (mkAction pkgs0 a pkg acc2) (a, pkg)) m)
          k = some d → ∀ k2 ∈ d.deps, (lookupAct
            (pkgs.foldl (fun acc2 pkg => markRoot (mkAction pkgs0 a pkg acc2) (a, pkg)) m)
            k2).isSome) ∧
       ((pkgs.foldl (fun acc2 pkg => markRoot (mkAction pkgs0 a pkg acc2) (a, pkg)) m).map
          Prod.fst).Nodup) := by
  intro pkgs
  induction pkgs with
  | nil => intro m h; exact h
  | cons pkg rest ih =>
    intro m h
    rw [List.foldl_cons]
    exact ih _ ⟨step_deps_wf pkgs0 a pkg m h.1, step_closed pkgs0 a pkg m h.2.1,
      step_nodup pkgs0 a pkg m h.2.2⟩

theorem foldl_analyzers_inv (pkgs0 : List Package) :
    ∀ (analyzers : List Analyzer) (m : ActionMap),
      ((∀ k d, lookupAct m k = some d → d.deps = depsOf k.1 k.2) ∧
       (∀ k d, lookupAct m k = some d → ∀ k2 ∈ d.deps, (lookupAct m k2).isSome) ∧
       (m.map Prod.fst).Nodup) →
      ((∀ k d, lookupAct
          (analyzers.foldl (fun acc a => pkgs0.foldl
            (fun acc2 pkg => markRoot (mkAction pkgs0 a pkg acc2) (a, pkg)) acc) m)
          k = some d → d.deps = depsOf k.1 k.2) ∧
       (∀ k d, lookupAct
          (analyzers.foldl (fun acc a => pkgs0.foldl
            (fun acc2 pkg => markRoot (mkAction pkgs0 a pkg acc2) (a, pkg)) acc) m)
          k = some d → ∀ k2 ∈ d.deps, (lookupAct
            (analyzers.foldl (fun acc a => pkgs0.foldl
              (fun acc2 pkg => markRoot (mkAction pkgs0 a pkg acc2) (a, pkg)) acc) m)
            k2).isSome) ∧
       ((analyzers.foldl (fun acc a => pkgs0.foldl
          (fun acc2 pkg => markRoot (mkAction pkgs0 a pkg acc2) (a, pkg)) acc) m).map
          Prod.fst).Nodup) := by
  intro analyzers
  induction analyzers with
  | nil => intro m h; exact h
  | cons a rest ih =>
    intro m h
    rw [List.foldl_cons]
    exact ih _ (foldl_pkgs_inv pkgs0 a pkgs0 m h)

theorem analyzeGraph_inv (analyzers : List Analyzer) (pkgs : List Package) :
    (∀ k d, lookupAct (analyzeGraph analyzers pkgs).1 k = some d →
      d.deps = depsOf k.1 k.2) ∧
    (∀ k d, lookupAct (analyzeGraph analyzers pkgs).1 k = some d →
      ∀ k2 ∈ d.deps, (lookupAct (analyzeGraph analyzers pkgs).1 k2).isSome) ∧
    ((analyzeGraph analyzers pkgs).1.map Prod.fst).Nodup := by
  rw [analyzeGraph]
  exact foldl_analyzers_inv pkgs analyzers []
    ⟨fun k d h => by simp [lookupAct] at h,
     fun k d h => by simp [lookupAct] at h,
     by simp⟩

theorem foldl_pkgs_mono (pkgs0 : List Package) (a : Analyzer) :
    ∀ (pkgs : List Package) (m : ActionMap) (k : ActionKey),
      (lookupAct m k).isSome →
      (lookupAct (pkgs.foldl
        (fun acc2 pkg => markRoot (mkAction pkgs0 a pkg acc2) (a, pkg)) m) k).isSome := by
  intro pkgs
  induction pkgs with
  | nil => intro m k h; exact h
  | cons pkg rest ih =>
    intro m k h
    rw [List.foldl_cons]
    exact ih _ k (step_mono pkgs0 a pkg m k h)

theorem foldl_analyzers_mono (pkgs0 : List Package) :
    ∀ (analyzers : List Analyzer) (m : ActionMap) (k : ActionKey),
      (lookupAct m k).isSome →
      (lookupAct (analyzers.foldl (fun acc a => pkgs0.foldl
        (fun acc2 pkg => markRoot (mkAction pkgs0 a pkg acc2) (a, pkg)) acc) m) k).isSome := by
  intro analyzers
  induction analyzers with
  | nil => intro m k h; exact h
  | cons a rest ih =>
    intro m k h
    rw [List.foldl_cons]
    exact ih _ k (foldl_pkgs_mono pkgs0 a pkgs0 m k h)

theorem foldl_pkgs_present (pkgs0 : List Package) (a : Analyzer) :
    ∀ (pkgs : List Package) (m : ActionMap) (pkg : Package), pkg ∈ pkgs →
      (lookupAct (pkgs.foldl
        (fun acc2 pkg2 => markRoot (mkAction pkgs0 a pkg2 acc2) (a, pkg2)) m)
        (a, pkg)).isSome := by
  intro pkgs
  induction pkgs with
  | nil => intro m pkg h; simp at h
  | cons pkg0 rest ih =>
    intro m pkg h
    rw [List.foldl_cons]
    rcases List.mem_cons.mp h with h1 | h1
    · subst h1
      refine foldl_pkgs_mono pkgs0 a rest _ (a, pkg) ?_
      rw [markRoot_isSome]
      exact mkAction_mem pkgs0 a pkg m
    · exact ih _ pkg h1

theorem analyzeGraph_present (analyzers : List Analyzer) (pkgs : List Package) :
    ∀ a ∈ analyzers, ∀ pkg ∈ pkgs,
      (lookupAct (analyzeGraph analyzers pkgs).1 (a, pkg)).isSome := by
  rw [analyzeGraph]
  suffices h : ∀ (as : List Analyzer) (m : ActionMap), ∀ a ∈ as, ∀ pkg ∈ pkgs,
      (lookupAct (as.foldl (fun acc a => pkgs.foldl
        (fun acc2 pkg => markRoot (mkAction pkgs a pkg acc2) (a, pkg)) acc) m)
        (a, pkg)).isSome by
    exact h analyzers []
  intro as
  induction as with
  | nil => intro m a h; simp at h
  | cons a0 rest ih =>
    intro m a ha pkg hpkg
    rw [List.foldl_cons]
    rcases List.mem_cons.mp ha with h1 | h1
    · subst h1
      exact foldl_analyzers_mono pkgs rest _ (a, pkg)
        (foldl_pkgs_present pkgs a pkgs m pkg hpkg)
    · exact ih _ a h1 pkg hpkg


/-! ### Claims C1 and C2 -/

/-- C1: For every analyzer `a` with a non-empty list of fact types and every
package `pkg` for which an action `(a, pkg)` exists after graph
construction, the builder created an action `(a, q)` for every direct
dependency `q` of `pkg` and put each such action into the dependency list
of `(a, pkg)`, with the imports enumerated in ascending order of path:
the dependency list ends with exactly the import actions listed along the
sorted import-path list. -/
theorem mkAction_fact_import_deps (analyzers : List Analyzer) (pkgs : List Package)
    (a : Analyzer) (pkg : Package) (act : ActionData)
    (hlook : lookupAct (analyzeGraph analyzers pkgs).1 (a, pkg) = some act)
    (hfacts : a.factTypes ≠ []) :
    act.deps = a.requiresList.map (fun req => (req, pkg)) ++
      (sortedImportPaths pkg).filterMap
        (fun path => (lookupImport pkg.imports path).map (fun q => (a, q))) ∧
    List.Sorted (· ≤ ·) (sortedImportPaths pkg) ∧
    ∀ path q, lookupImport pkg.imports path = some q →
      (a, q) ∈ act.deps ∧
      (lookupAct (analyzeGraph analyzers pkgs).1 (a, q)).isSome := by
  obtain ⟨hwf, hcl, _⟩ := analyzeGraph_inv analyzers pkgs
  have hf : a.factTypes.isEmpty = false := by
    cases hfa : a.factTypes with
    | nil => exact absurd hfa hfacts
    | cons x xs => simp [hfa]
  have hdeps : act.deps = a.requiresList.map (fun req => (req, pkg)) ++
      (sortedImportPaths pkg).filterMap
        (fun path => (lookupImport pkg.imports path).map (fun q => (a, q))) := by
    have h1 := hwf (a, pkg) act hlook
    rw [h1]
    show depsOf a pkg = _
    rw [depsOf, hf]
    simp
  refine ⟨hdeps, List.sorted_insertionSort _ _, ?_⟩
  intro path q hq
  have hmem : (a, q) ∈ act.deps := by
    rw [hdeps]
    refine List.mem_append_right _ (List.mem_filterMap.mpr ⟨path, ?_, by rw [hq]; rfl⟩)
    rw [sortedImportPaths]
    exact ((List.perm_insertionSort _ _).mem_iff).mpr
      (lookupImport_mem_keys pkg.imports path q hq)
  exact ⟨hmem, hcl (a, pkg) act hlook (a, q) hmem⟩

/-- C1 witness: a fact-producing analyzer `A` on a package `p` importing a
single package `q`; the action `(A, p)` exists, has `(A, q)` among its
dependencies, and the action `(A, q)` exists. -/
theorem mkAction_fact_import_deps_witness :
    (Analyzer.mk "A" [] ["f"]).factTypes ≠ [] ∧
    ∃ act, lookupAct (analyzeGraph [Analyzer.mk "A" [] ["f"]]
        [Package.mk "p" [("q", Package.mk "q" [])]]).1
        (Analyzer.mk "A" [] ["f"], Package.mk "p" [("q", Package.mk "q" [])]) = some act ∧
      (Analyzer.mk "A" [] ["f"], Package.mk "q" []) ∈ act.deps ∧
      (lookupAct (analyzeGraph [Analyzer.mk "A" [] ["f"]]
        [Package.mk "p" [("q", Package.mk "q" [])]]).1
        (Analyzer.mk "A" [] ["f"], Package.mk "q" [])).isSome := by
  refine ⟨by decide, ?_⟩
  have hpres := analyzeGraph_present [Analyzer.mk "A" [] ["f"]]
    [Package.mk "p" [("q", Package.mk "q" [])]]
    (Analyzer.mk "A" [] ["f"]) (by simp)
    (Package.mk "p" [("q", Package.mk "q" [])]) (by simp)
  obtain ⟨act, hlook⟩ := Option.isSome_iff_exists.mp hpres
  have h := mkAction_fact_import_deps [Analyzer.mk "A" [] ["f"]]
    [Package.mk "p" [("q", Package.mk "q" [])]]
    (Analyzer.mk "A" [] ["f"]) (Package.mk "p" [("q", Package.mk "q" [])])
    act hlook (by decide)
  refine ⟨act, hlook, ?_, ?_⟩
  · exact (h.2.2 "q" (Package.mk "q" []) (by decide)).1
  · exact (h.2.2 "q" (Package.mk "q" []) (by decide)).2

/-- C2: after graph construction at most one action exists per (analyzer,
package) pair: a call of `mkAction` on a key that is already present
returns the map unchanged (the same action is reused), and the final
action map of `analyzeGraph` binds every key at most once. -/
theorem action_graph_dedup :
    (∀ (init : List Package) (a : Analyzer) (pkg : Package) (m : ActionMap),
      (lookupAct m (a, pkg)).isSome → mkAction init a pkg m = m) ∧
    (∀ (analyzers : List Analyzer) (pkgs : List Package),
      ((analyzeGraph analyzers pkgs).1.map Prod.fst).Nodup) := by
  constructor
  · intro init a pkg m h
    rw [mkAction, if_pos h]
  · intro analyzers pkgs
    exact (analyzeGraph_inv analyzers pkgs).2.2

/-- C2 witness: calling `mkAction` again for a key already in the map
returns the map unchanged. -/
theorem action_graph_dedup_witness :
    mkAction [] (Analyzer.mk "A" [] []) (Package.mk "p" [])
      [((Analyzer.mk "A" [] [], Package.mk "p" []),
        { deps := [], isroot := false, isInitialPkg := false,
          needAnalyzeSource := false })] =
      [((Analyzer.mk "A" [] [], Package.mk "p" []),
        { deps := [], isroot := false, isInitialPkg := false,
          needAnalyzeSource := false })] :=
  action_graph_dedup.1 _ _ _ _ (by decide)


/-! ### Claim C3 -/

/-- C3 counterexample: an action whose package is ill-typed, whose analyzer
does not set run-despite-errors and whose dependency list is empty (so all
dependencies completed without error), but which does not need source
analysis: `analyze` returns immediately, never invokes the analyzer and —
contrary to the claim — leaves the action's error unset. -/
theorem analyze_not_needed_source_cex :
    (AnalyzeIn.mk false [] true false (Except.ok ()) true "p" "A").illTyped = true ∧
    (AnalyzeIn.mk false [] true false (Except.ok ()) true "p" "A").runDespiteErrors
      = false ∧
    (∀ d ∈ (AnalyzeIn.mk false [] true false (Except.ok ()) true "p" "A").deps,
      d.err = none) ∧
    (analyze (AnalyzeIn.mk false [] true false (Except.ok ()) true "p" "A")).invoked
      = false ∧
    (analyze (AnalyzeIn.mk false [] true false (Except.ok ()) true "p" "A")).err
      = none := by
  refine ⟨rfl, rfl, ?_, rfl, rfl⟩
  intro d hd
  simp [AnalyzeIn.deps] at hd

/-- C3 (amended): for every action that needs source analysis and whose
dependencies all completed without error, if the package is ill-typed and
the analyzer does not set run-despite-errors then the analyzer entry point
is not invoked and the action's error is set to "analysis skipped due to
errors in package"; otherwise the analyzer is invoked. -/
theorem analyze_run_gating (i : AnalyzeIn)
    (hsrc : i.needAnalyzeSource = true)
    (hdeps : ∀ d ∈ i.deps, d.err = none) :
    ((i.illTyped = true ∧ i.runDespiteErrors = false) →
      (analyze i).invoked = false ∧
      (analyze i).err = some "analysis skipped due to errors in package") ∧
    (¬(i.illTyped = true ∧ i.runDespiteErrors = false) → (analyze i).invoked = true) := by
  have hfail : i.deps.filter (fun d => d.err.isSome) = [] := by
    rw [List.filter_eq_nil_iff]
    intro d hd
    rw [hdeps d hd]
    simp
  constructor
  · rintro ⟨h1, h2⟩
    constructor <;> simp [analyze, hsrc, hfail, h1, h2]
  · intro hno
    have hb : (i.illTyped && !i.runDespiteErrors) = false := by
      cases h1 : i.illTyped <;> cases h2 : i.runDespiteErrors <;> simp_all
    simp [analyze, hsrc, hfail, hb]

/-- C3 witness: an ill-typed package, analyzer without run-despite-errors,
needing source analysis, with no dependencies: the analyzer is skipped and
the skip error is recorded. -/
theorem analyze_run_gating_witness :
    (analyze (AnalyzeIn.mk true [] true false (Except.ok ()) true "p" "A")).invoked
      = false ∧
    (analyze (AnalyzeIn.mk true [] true false (Except.ok ()) true "p" "A")).err
      = some "analysis skipped due to errors in package" :=
  (analyze_run_gating (AnalyzeIn.mk true [] true false (Except.ok ()) true "p" "A")
    rfl (fun d hd => by simp [AnalyzeIn.deps] at hd)).1 ⟨rfl, rfl⟩

/-! ### Claim C4 -/

/-- C4: the fact list written by `persistFactsToCache` (when the analyzer
has fact types; otherwise nothing is written) contains only records coming
from (i) package facts keyed by the action's own package — stored with
empty path — and (ii) object facts whose object belongs to the action's
own package and has a computable object path, stored under that path.
Facts failing these filters are skipped without producing an error. -/
theorem persistFactsToCache_scope {F : Type} (act : PersistIn F)
    (facts : List (FactRec F)) (h : persistFactsToCache act = some facts) :
    ∀ r ∈ facts,
      (r.path = "" ∧ ((act.pkgPath, r.ty), r.fact) ∈ act.packageFacts) ∨
      (∃ o, ((o, r.ty), r.fact) ∈ act.objectFacts ∧ o.pkg = act.pkgPath ∧
        o.objPath = some r.path) := by
  rw [persistFactsToCache] at h
  split at h
  · cases h
  · cases h
    intro r hr
    rcases List.mem_append.mp hr with h1 | h1
    · obtain ⟨⟨⟨kp, kt⟩, kfact⟩, hkf, heq⟩ := List.mem_filterMap.mp h1
      simp only at heq
      split at heq
      · rename_i hc
        cases heq
        subst hc
        exact Or.inl ⟨rfl, hkf⟩
      · cases heq
    · obtain ⟨⟨⟨ko, kt⟩, kfact⟩, hkf, heq⟩ := List.mem_filterMap.mp h1
      simp only at heq
      split at heq
      · rename_i hc
        cases hp : ko.objPath with
        | none => rw [hp] at heq; cases heq
        | some p =>
          rw [hp] at heq
          simp only [Option.map_some'] at heq
          cases heq
          exact Or.inr ⟨ko, hkf, hc, hp⟩
      · cases heq

/-- C4 witness: an action carrying one own-package fact, one inherited
package fact, one persistable object fact, one foreign object fact and one
non-addressable object fact; the persisted list keeps exactly the two
eligible records, and the theorem applies to the object record. -/
theorem persistFactsToCache_scope_witness :
    persistFactsToCache (F := Nat)
      (PersistIn.mk ["t"] "p"
        [(("p", "t"), 1), (("other", "t"), 2)]
        [((Obj.mk ObjKind.typeName "p" (some "X"), "t"), 3),
         ((Obj.mk ObjKind.typeName "other" (some "Y"), "t"), 4),
         ((Obj.mk ObjKind.typeName "p" none, "t"), 5)]) =
      some [FactRec.mk "" "t" 1, FactRec.mk "X" "t" 3] ∧
    (((FactRec.mk "X" "t" 3).path = "" ∧
      ((("p" : String), (FactRec.mk "X" "t" (3 : Nat)).ty),
        (FactRec.mk "X" "t" (3 : Nat)).fact) ∈
        [((("p" : String), ("t" : String)), (1 : Nat)), (("other", "t"), 2)]) ∨
    (∃ o, ((o, (FactRec.mk "X" "t" (3 : Nat)).ty), (FactRec.mk "X" "t" (3 : Nat)).fact) ∈
        [((Obj.mk ObjKind.typeName "p" (some "X"), "t"), (3 : Nat)),
         ((Obj.mk ObjKind.typeName "other" (some "Y"), "t"), 4),
         ((Obj.mk ObjKind.typeName "p" none, "t"), 5)] ∧
      o.pkg = "p" ∧ o.objPath = some (FactRec.mk "X" "t" (3 : Nat)).path)) := by
  refine ⟨by decide, ?_⟩
  exact persistFactsToCache_scope
    (PersistIn.mk ["t"] "p"
      [(("p", "t"), 1), (("other", "t"), 2)]
      [((Obj.mk ObjKind.typeName "p" (some "X"), "t"), 3),
       ((Obj.mk ObjKind.typeName "other" (some "Y"), "t"), 4),
       ((Obj.mk ObjKind.typeName "p" none, "t"), 5)])
    [FactRec.mk "" "t" 1, FactRec.mk "X" "t" 3] (by decide)
    (FactRec.mk "X" "t" 3) (by decide)

/-! ### Claim C6 -/

/-- C6 counterexample: a non-initial package whose export-data load fails
and whose subsequent source load also fails: `loadWithFacts` returns the
source-load error, not the decorated export-data error the claim
promises. -/
theorem loadWithFacts_source_error_cex :
    (loadWithFacts (LoadIn.mk "x" false false (Except.error "no export data")
      (Except.error "src broken") false)).err = some "src broken" ∧
    (loadWithFacts (LoadIn.mk "x" false false (Except.error "no export data")
      (Except.error "src broken") false)).err ≠
      some ("could not load export data: " ++ "no export data") := by
  refine ⟨rfl, by decide⟩

/-- C6 (amended): for every non-initial, not-yet-typed, non-`unsafe`
package whose export-data load fails, `loadWithFacts` attempts a source
load; when the source load fails its error is returned, and when it
succeeds the original export-data error is returned decorated with
"could not load export data"; in both cases an error is returned, so the
package is excluded from successful analysis. -/
theorem loadWithFacts_export_fail (i : LoadIn) (e : String)
    (hu : i.pkgPath ≠ "unsafe") (ht : i.typesInfoPresent = false)
    (hi : i.isInitial = false) (he : i.exportLoad = Except.error e) :
    (loadWithFacts i).sourceAttempted = true ∧
    (loadWithFacts i).err = some
      (match i.sourceLoad with
       | Except.error s => s
       | Except.ok _ => "could not load export data: " ++ e) ∧
    (loadWithFacts i).err ≠ none := by
  rw [loadWithFacts]
  rw [if_neg hu]
  rw [ht, hi]
  simp only [if_false, Bool.false_eq_true, he]
  cases hs : i.sourceLoad with
  | error s => exact ⟨rfl, rfl, by simp⟩
  | ok u => exact ⟨rfl, rfl, by simp⟩

/-- C6 witness: concrete failing export-data load with a succeeding source
load; the decorated export error is returned. -/
theorem loadWithFacts_export_fail_witness :
    (loadWithFacts (LoadIn.mk "x" false false (Except.error "boom")
      (Except.ok ()) false)).sourceAttempted = true ∧
    (loadWithFacts (LoadIn.mk "x" false false (Except.error "boom")
      (Except.ok ()) false)).err = some
      (match (Except.ok () : Except String Unit) with
       | Except.error s => s
       | Except.ok _ => "could not load export data: " ++ "boom") ∧
    (loadWithFacts (LoadIn.mk "x" false false (Except.error "boom")
      (Except.ok ()) false)).err ≠ none :=
  loadWithFacts_export_fail
    (LoadIn.mk "x" false false (Except.error "boom") (Except.ok ()) false)
    "boom" (by decide) rfl rfl rfl


/-! ### Claim C7 -/

theorem inheritObjFacts_serialize_false {F : Type} (c1 c2 : F → Option F) (dp : String) :
    ∀ (l acc : ObjFacts F),
      inheritObjFacts false c1 dp l acc = inheritObjFacts false c2 dp l acc ∧
      ∃ r, inheritObjFacts false c1 dp l acc = Except.ok r := by
  intro l
  induction l with
  | nil => intro acc; exact ⟨rfl, acc, rfl⟩
  | cons kf rest ih =>
    intro acc
    rw [inheritObjFacts, inheritObjFacts]
    split
    · exact ih acc
    · simp only [if_false, Bool.false_eq_true]
      exact ih _

theorem inheritPkgFacts_serialize_false {F : Type} (c1 c2 : F → Option F) :
    ∀ (l acc : PkgFacts F),
      inheritPkgFacts false c1 l acc = inheritPkgFacts false c2 l acc ∧
      ∃ r, inheritPkgFacts false c1 l acc = Except.ok r := by
  intro l
  induction l with
  | nil => intro acc; exact ⟨rfl, acc, rfl⟩
  | cons kf rest ih =>
    intro acc
    rw [inheritPkgFacts, inheritPkgFacts]
    simp only [if_false, Bool.false_eq_true]
    exact ih _

/-- C7 counterexample: with the sanity debug flag set and a codec whose
encoding always fails, `inheritFacts` still succeeds and stores the
dependency's exported object fact and package fact unchanged: the claim's
round-trip (and its fatal-on-encoding-failure behavior) never happens,
because the source hardcodes `serialize := false`. -/
theorem inheritFacts_sanity_cex :
    inheritFacts (F := Nat) true (fun _ => none)
      (InheritAct.mk [] [])
      (InheritDep.mk "d" [((Obj.mk ObjKind.typeName "d" none, "T"), 7)]
        [(("d", "P"), 9)]) =
      Except.ok (InheritAct.mk [((Obj.mk ObjKind.typeName "d" none, "T"), 7)]
        [(("d", "P"), 9)]) := by
  rfl

/-- C7 (amended): `inheritFacts` never round-trips a fact through the
codec and never fails, whatever the state of the sanity debug flag and
whatever the codec does: its result is independent of both, and it always
returns `ok` (facts stored as they are, object facts filtered by
`exportedFrom`, package facts unfiltered). -/
theorem inheritFacts_no_roundtrip {F : Type} (s1 s2 : Bool) (c1 c2 : F → Option F)
    (act : InheritAct F) (dep : InheritDep F) :
    inheritFacts s1 c1 act dep = inheritFacts s2 c2 act dep ∧
    ∃ st, inheritFacts s1 c1 act dep = Except.ok st := by
  rw [inheritFacts, inheritFacts]
  obtain ⟨hoeq, ⟨ro, hro⟩⟩ :=
    inheritObjFacts_serialize_false c1 c2 dep.pkgPath dep.objectFacts act.objectFacts
  obtain ⟨hpeq, ⟨rp, hrp⟩⟩ :=
    inheritPkgFacts_serialize_false c1 c2 dep.packageFacts act.packageFacts
  rw [← hoeq, ← hpeq, hro, hrp]
  exact ⟨rfl, _, rfl⟩

/-! ### Claim C9 -/

theorem loadCachedFacts_done {F : Type} (resolve : String → Option Obj)
    (cacheGet : Option (List (FactRec F))) (act : CachedFactsAct F)
    (h : act.loadCachedFactsDone = true) :
    loadCachedFacts resolve cacheGet act =
      { act := act, ok := act.loadCachedFactsOk, cacheAccessed := false } := by
  rw [loadCachedFacts, h]
  simp

theorem loadCachedFacts_sets_done {F : Type} (resolve : String → Option Obj)
    (cacheGet : Option (List (FactRec F))) (act : CachedFactsAct F) :
    (loadCachedFacts resolve cacheGet act).act.loadCachedFactsDone = true ∧
    (loadCachedFacts resolve cacheGet act).act.loadCachedFactsOk =
      (loadCachedFacts resolve cacheGet act).ok := by
  rw [loadCachedFacts]
  split
  · rename_i h
    exact ⟨h, rfl⟩
  · exact ⟨rfl, rfl⟩

/-- C9: `loadCachedFacts` consults the persistent cache iff the action's
package is not initial and its analyzer declares at least one fact type;
in the two excluded cases it reports success without touching the cache;
and the outcome is memoized: after any call the done flag is set, and
every later call — under any cache contents — returns the first call's
outcome without cache access. -/
theorem loadCachedFacts_consult_iff {F : Type} (resolve : String → Option Obj)
    (cacheGet : Option (List (FactRec F))) (act : CachedFactsAct F)
    (hdone : act.loadCachedFactsDone = false) :
    ((loadCachedFacts resolve cacheGet act).cacheAccessed = true ↔
      (act.isInitialPkg = false ∧ act.factTypes ≠ [])) ∧
    ((act.isInitialPkg = true ∨ act.factTypes = []) →
      (loadCachedFacts resolve cacheGet act).ok = true ∧
      (loadCachedFacts resolve cacheGet act).cacheAccessed = false) ∧
    (∀ (resolve2 : String → Option Obj) (cacheGet2 : Option (List (FactRec F))),
      loadCachedFacts resolve2 cacheGet2 (loadCachedFacts resolve cacheGet act).act =
        { act := (loadCachedFacts resolve cacheGet act).act
          ok := (loadCachedFacts resolve cacheGet act).ok
          cacheAccessed := false }) := by
  refine ⟨?_, ?_, ?_⟩
  · by_cases hinit : act.isInitialPkg
    · simp [loadCachedFacts, hdone, hinit]
    · by_cases hft : act.factTypes = []
      · simp [loadCachedFacts, hdone, hinit, hft]
      · simp only [Bool.not_eq_true] at hinit
        simp [loadCachedFacts, hdone, hinit, hft]
  · intro hcase
    rcases hcase with h1 | h1
    · constructor <;> simp [loadCachedFacts, hdone, h1]
    · by_cases hinit : act.isInitialPkg <;>
        (constructor <;> simp [loadCachedFacts, hdone, h1, hinit])
  · intro resolve2 cacheGet2
    obtain ⟨h1, h2⟩ := loadCachedFacts_sets_done resolve cacheGet act
    rw [loadCachedFacts_done resolve2 cacheGet2 _ h1, h2]

/-- C9 witness: a non-initial action with one fact type consults the
cache; an initial action does not and reports success. -/
theorem loadCachedFacts_consult_iff_witness :
    ((loadCachedFacts (F := Nat) (fun _ => none) none
      (CachedFactsAct.mk false ["t"] false false "p" [] [])).cacheAccessed = true) ∧
    ((loadCachedFacts (F := Nat) (fun _ => none) none
      (CachedFactsAct.mk true ["t"] false false "p" [] [])).ok = true ∧
     (loadCachedFacts (F := Nat) (fun _ => none) none
      (CachedFactsAct.mk true ["t"] false false "p" [] [])).cacheAccessed = false) := by
  constructor
  · exact (loadCachedFacts_consult_iff (fun _ => none) none
      (CachedFactsAct.mk false ["t"] false false "p" [] []) rfl).1.mpr
      ⟨rfl, by decide⟩
  · exact (loadCachedFacts_consult_iff (fun _ => none) none
      (CachedFactsAct.mk true ["t"] false false "p" [] []) rfl).2.1 (Or.inl rfl)

/-! ### Claim C10 -/

theorem getFact_setFact {K F : Type} [DecidableEq K] (l : List (K × F)) (k : K) (f : F) :
    getFact (setFact l k f) k = some f := by
  rw [setFact, getFact, if_pos rfl]

/-- C10: calling `exportPackageFact` on an open pass panics with an
out-of-range index when the package has no syntax files — whatever the
state of the facts-debug flag, because the arguments of the debug call are
evaluated unconditionally — and for every package with at least one syntax
file it stores (clobbering any previous entry) the fact keyed by the
pass's own package and the fact type, without panicking. -/
theorem exportPackageFact_empty_files_panic {F : Type} (isFactsDebug : Bool)
    (fact : F) (ty : String) (act : ExportPkgFactAct F)
    (hopen : act.passOpen = true) :
    (act.passFiles = [] →
      ((exportPackageFact isFactsDebug fact ty act).2).isSome) ∧
    (act.passFiles ≠ [] →
      (exportPackageFact isFactsDebug fact ty act).2 = none ∧
      (exportPackageFact isFactsDebug fact ty act).1.packageFacts =
        setFact act.packageFacts (act.passPkgPath, ty) fact ∧
      getFact (exportPackageFact isFactsDebug fact ty act).1.packageFacts
        (act.passPkgPath, ty) = some fact) := by
  rw [exportPackageFact]
  rw [hopen]
  simp only [Bool.not_true, if_false, Bool.false_eq_true]
  constructor
  · intro hfiles
    rw [hfiles]
    simp
  · intro hfiles
    split
    · rename_i heq
      exact absurd heq hfiles
    · exact ⟨rfl, rfl, getFact_setFact _ _ _⟩

/-- C10 witness: an open pass over a package with no syntax files panics
even with facts debugging disabled; with one syntax file the fact is
stored without a panic. -/
theorem exportPackageFact_empty_files_panic_witness :
    ((exportPackageFact (F := Nat) false 5 "T"
      (ExportPkgFactAct.mk true "p" [] [])).2).isSome ∧
    ((exportPackageFact (F := Nat) false 5 "T"
      (ExportPkgFactAct.mk true "p" [3] [])).2 = none ∧
     getFact (exportPackageFact (F := Nat) false 5 "T"
      (ExportPkgFactAct.mk true "p" [3] [])).1.packageFacts ("p", "T") = some 5) := by
  constructor
  · exact (exportPackageFact_empty_files_panic false 5 "T"
      (ExportPkgFactAct.mk true "p" [] []) rfl).1 rfl
  · have h := (exportPackageFact_empty_files_panic false 5 "T"
      (ExportPkgFactAct.mk true "p" [3] []) rfl).2 (by decide)
    exact ⟨h.1, h.2.2⟩


/-! ### Lemmas: first-occurrence deduplication -/

theorem dedupFirst_spec (l : List DiagOut) : ∀ (S : List DKey),
    (∀ d ∈ dedupFirst S l, d.key ∉ S) ∧
    List.Pairwise (fun d1 d2 => d1.key ≠ d2.key) (dedupFirst S l) := by
  induction l with
  | nil => intro S; simp [dedupFirst]
  | cons d ds ih =>
    intro S
    rw [dedupFirst]
    split
    · exact ih S
    · rename_i hm
      obtain ⟨h1, h2⟩ := ih (d.key :: S)
      constructor
      · intro x hx
        rcases List.mem_cons.mp hx with heq | hx2
        · rw [heq]
          exact hm
        · intro hxS
          exact h1 x hx2 (List.mem_cons_of_mem _ hxS)
      · rw [List.pairwise_cons]
        refine ⟨?_, h2⟩
        intro x hx heq
        apply h1 x hx
        rw [← heq]
        exact List.mem_cons_self _ _

theorem dedupFirst_congr (l : List DiagOut) : ∀ (S1 S2 : List DKey),
    (∀ k, k ∈ S1 ↔ k ∈ S2) → dedupFirst S1 l = dedupFirst S2 l := by
  induction l with
  | nil => intro S1 S2 _; rfl
  | cons d ds ih =>
    intro S1 S2 h
    rw [dedupFirst, dedupFirst]
    by_cases hm : d.key ∈ S1
    · rw [if_pos hm, if_pos ((h _).mp hm)]
      exact ih S1 S2 h
    · rw [if_neg hm, if_neg (fun hx => hm ((h _).mpr hx))]
      congr 1
      apply ih
      intro k
      rw [List.mem_cons, List.mem_cons, h k]

theorem seenAfter_mem (l : List DiagOut) : ∀ (S : List DKey) (k : DKey),
    k ∈ seenAfter S l ↔ k ∈ S ∨ k ∈ l.map DiagOut.key := by
  induction l with
  | nil => intro S k; simp [seenAfter]
  | cons d ds ih =>
    intro S k
    rw [seenAfter, List.map_cons]
    rw [ih]
    by_cases hm : d.key ∈ S
    · rw [if_pos hm, List.mem_cons]
      constructor
      · rintro (h | h)
        · exact Or.inl h
        · exact Or.inr (Or.inr h)
      · rintro (h | h | h)
        · exact Or.inl h
        · rw [h]
          exact Or.inl hm
        · exact Or.inr h
    · rw [if_neg hm, List.mem_cons, List.mem_cons]
      tauto

theorem dedupFirst_append (l1 : List DiagOut) : ∀ (S : List DKey) (l2 : List DiagOut),
    dedupFirst S (l1 ++ l2) =
      dedupFirst S l1 ++ dedupFirst (seenAfter S l1) l2 := by
  induction l1 with
  | nil =>
    intro S l2
    rw [List.nil_append, seenAfter]
    rw [show dedupFirst S [] = [] from rfl, List.nil_append]
  | cons d ds ih =>
    intro S l2
    rw [List.cons_append, dedupFirst, dedupFirst, seenAfter]
    by_cases hm : d.key ∈ S
    · rw [if_pos hm, if_pos hm, if_pos hm]
      exact ih S l2
    · rw [if_neg hm, if_neg hm, if_neg hm, List.cons_append]
      congr 1
      exact ih (d.key :: S) l2


/-! ### Lemmas: the extractor refines collect-then-dedup -/

theorem foldl_processDiag (aNm fs : String) (ds : List Diag) :
    ∀ (st : ExtractState) (prev : List DiagOut),
      (∀ k, k ∈ st.seen ↔ k ∈ prev.map DiagOut.key) →
      st.diags = dedupFirst [] prev →
      ((ds.foldl (processDiag aNm fs) st).extracted = st.extracted ∧
       (ds.foldl (processDiag aNm fs) st).errs = st.errs ∧
       (ds.foldl (processDiag aNm fs) st).diags =
         dedupFirst [] (prev ++ ds.map (fun d => DiagOut.mk (fs, d.pos) aNm d.message)) ∧
       (∀ k, k ∈ (ds.foldl (processDiag aNm fs) st).seen ↔
         k ∈ (prev ++ ds.map (fun d => DiagOut.mk (fs, d.pos) aNm d.message)).map
           DiagOut.key)) := by
  induction ds with
  | nil =>
    intro st prev h1 h2
    simp only [List.foldl_nil, List.map_nil, List.append_nil]
    exact ⟨by trivial, by trivial, h2, h1⟩
  | cons d rest ih =>
    intro st prev h1 h2
    rw [List.foldl_cons, List.map_cons]
    rw [show prev ++ (DiagOut.mk (fs, d.pos) aNm d.message ::
      rest.map (fun d => DiagOut.mk (fs, d.pos) aNm d.message)) =
      (prev ++ [DiagOut.mk (fs, d.pos) aNm d.message]) ++
        rest.map (fun d => DiagOut.mk (fs, d.pos) aNm d.message) by simp]
    rw [processDiag]
    by_cases hm : ((fs, d.pos), aNm, d.message) ∈ st.seen
    · rw [if_pos hm]
      have hkey : (DiagOut.mk (fs, d.pos) aNm d.message).key ∈ prev.map DiagOut.key :=
        (h1 _).mp hm
      refine ih st (prev ++ [DiagOut.mk (fs, d.pos) aNm d.message]) ?_ ?_
      · intro k
        rw [h1 k, List.map_append, List.mem_append]
        constructor
        · exact fun h => Or.inl h
        · rintro (h | h)
          · exact h
          · simp only [List.map_cons, List.map_nil, List.mem_singleton] at h
            rw [h]
            exact hkey
      · rw [dedupFirst_append prev [] _]
        have hmem2 : (DiagOut.mk (fs, d.pos) aNm d.message).key ∈ seenAfter [] prev :=
          (seenAfter_mem prev [] _).mpr (Or.inr hkey)
        rw [dedupFirst, if_pos hmem2]
        rw [show dedupFirst (seenAfter [] prev) [] = [] from rfl, List.append_nil]
        exact h2
    · rw [if_neg hm]
      have hkey : (DiagOut.mk (fs, d.pos) aNm d.message).key ∉ prev.map DiagOut.key :=
        fun h => hm ((h1 _).mpr h)
      refine ih _ (prev ++ [DiagOut.mk (fs, d.pos) aNm d.message]) ?_ ?_
      · intro k
        simp only [List.mem_cons, List.map_append, List.mem_append, List.map_cons,
          List.map_nil, DiagOut.key]
        rw [h1 k]
        have hnil : ¬ (k ∈ ([] : List DKey)) := by simp
        tauto
      · rw [dedupFirst_append prev [] _]
        have hmem2 : (DiagOut.mk (fs, d.pos) aNm d.message).key ∉ seenAfter [] prev := by
          intro hx
          rcases (seenAfter_mem prev [] _).mp hx with h | h
          · simp at h
          · exact hkey h
        rw [dedupFirst, if_neg hmem2]
        rw [show dedupFirst ((DiagOut.mk (fs, d.pos) aNm d.message).key ::
          seenAfter [] prev) [] = [] from rfl]
        rw [← h2]

theorem extractAct_collect (act : ActionTree) (st : ExtractState) (cst : CollectState)
    (hext : st.extracted = cst.extracted) (herr : st.errs = cst.errs)
    (hdiag : st.diags = dedupFirst [] cst.diags)
    (hseen : ∀ k, k ∈ st.seen ↔ k ∈ cst.diags.map DiagOut.key) :
    (extractAct act st).extracted = (collectAct act cst).extracted ∧
    (extractAct act st).errs = (collectAct act cst).errs ∧
    (extractAct act st).diags = dedupFirst [] (collectAct act cst).diags ∧
    (∀ k, k ∈ (extractAct act st).seen ↔
      k ∈ (collectAct act cst).diags.map DiagOut.key) := by
  rw [extractAct, collectAct]
  cases he : act.err with
  | some e => exact ⟨hext, by rw [herr], hdiag, hseen⟩
  | none =>
    by_cases hr : act.isroot
    · rw [if_pos hr, if_pos hr]
      obtain ⟨e1, e2, e3, e4⟩ :=
        foldl_processDiag act.aName act.fset act.diags st cst.diags hseen hdiag
      exact ⟨by rw [e1, hext], by rw [e2, herr], e3, e4⟩
    · rw [if_neg hr, if_neg hr]
      exact ⟨hext, herr, hdiag, hseen⟩

theorem visitAll_collect (n : Nat) :
    ∀ (acts : List ActionTree), sizeOf acts ≤ n →
    ∀ (st : ExtractState) (cst : CollectState),
      st.extracted = cst.extracted → st.errs = cst.errs →
      st.diags = dedupFirst [] cst.diags →
      (∀ k, k ∈ st.seen ↔ k ∈ cst.diags.map DiagOut.key) →
      (visitAll acts st).extracted = (collectAll acts cst).extracted ∧
      (visitAll acts st).errs = (collectAll acts cst).errs ∧
      (visitAll acts st).diags = dedupFirst [] (collectAll acts cst).diags ∧
      (∀ k, k ∈ (visitAll acts st).seen ↔
        k ∈ (collectAll acts cst).diags.map DiagOut.key) := by
  induction n with
  | zero =>
    intro acts hsz
    cases acts with
    | nil => simp at hsz
    | cons a rest => simp at hsz <;> omega
  | succ n ih =>
    intro acts hsz st cst h1 h2 h3 h4
    match acts with
    | [] =>
      rw [visitAll, collectAll]
      exact ⟨h1, h2, h3, h4⟩
    | (ActionTree.mk nm fs r e g ds) :: rest =>
      have hsz1 : sizeOf ds ≤ n := by
        have ha := List.cons.sizeOf_spec (ActionTree.mk nm fs r e g ds) rest
        have hb : sizeOf ds < sizeOf (ActionTree.mk nm fs r e g ds) := by
          simp <;> omega
        omega
      have hsz2 : sizeOf rest ≤ n := by
        have ha := List.cons.sizeOf_spec (ActionTree.mk nm fs r e g ds) rest
        have hb : 0 < sizeOf (ActionTree.mk nm fs r e g ds) := by
          simp <;> omega
        omega
      rw [visitAll, collectAll]
      by_cases hmem : ActionTree.mk nm fs r e g ds ∈ st.extracted
      · have hmem2 : ActionTree.mk nm fs r e g ds ∈ cst.extracted := by
          rw [← h1]; exact hmem
        rw [if_pos hmem, if_pos hmem2]
        exact ih rest hsz2 st cst h1 h2 h3 h4
      · have hmem2 : ActionTree.mk nm fs r e g ds ∉ cst.extracted := by
          rw [← h1]; exact hmem
        rw [if_neg hmem, if_neg hmem2]
        have hin := ih ds hsz1
          { st with extracted := ActionTree.mk nm fs r e g ds :: st.extracted }
          { cst with extracted := ActionTree.mk nm fs r e g ds :: cst.extracted }
          (by simp [h1]) h2 h3 h4
        have hstep := extractAct_collect (ActionTree.mk nm fs r e g ds) _ _
          hin.1 hin.2.1 hin.2.2.1 hin.2.2.2
        exact ih rest hsz2 _ _ hstep.1 hstep.2.1 hstep.2.2.1 hstep.2.2.2


/-! ### Claims C5 and C8 -/

/-- C5: the diagnostics returned by `extractDiagnostics` are exactly the
first-occurrence deduplication, by (materialized position, analyzer,
message) key, of all diagnostics encountered in traversal order (each
emitted with its position materialized); in particular the returned list
contains no two entries with an equal key. -/
theorem extractDiagnostics_dedup (roots : List ActionTree) :
    (extractDiagnostics roots).1 = dedupFirst [] (collectSpec roots).diags ∧
    List.Pairwise (fun d1 d2 => d1.key ≠ d2.key) (extractDiagnostics roots).1 := by
  have h := visitAll_collect (sizeOf roots) roots (le_refl _)
    (ExtractState.mk [] [] [] []) (CollectState.mk [] [] [])
    rfl rfl rfl (by simp)
  rw [extractDiagnostics, collectSpec]
  refine ⟨h.2.2.1, ?_⟩
  rw [h.2.2.1]
  exact (dedupFirst_spec _ []).2

/-- C8 counterexample: a non-root dependency with a set error contributes
its wrapped error to the returned error list, contrary to the claim that
only root actions do. -/
theorem extract_nonroot_error_cex :
    (ActionTree.mk "B" "fs" false (some "boom") [] []).isroot = false ∧
    (extractDiagnostics [ActionTree.mk "A" "fs" true none []
      [ActionTree.mk "B" "fs" false (some "boom") [] []]]).2 = ["B: boom"] := by
  refine ⟨rfl, ?_⟩
  simp [extractDiagnostics, visitAll, extractAct, ActionTree.err, ActionTree.aName,
    ActionTree.isroot, ActionTree.diags, ActionTree.deps, ActionTree.fset]

/-- C8 (amended): during diagnostic extraction an action's error is
wrapped with the analyzer name and appended to the returned error list for
every action visited by the traversal, root or not — the root flag gates
only the emission of diagnostics.  The returned error list equals the
error collection of the specification-side traversal, which appends the
wrapped error of every visited action with a set error. -/
theorem extract_errors_all_visited (roots : List ActionTree) :
    (extractDiagnostics roots).2 = (collectSpec roots).errs := by
  have h := visitAll_collect (sizeOf roots) roots (le_refl _)
    (ExtractState.mk [] [] [] []) (CollectState.mk [] [] [])
    rfl rfl rfl (by simp)
  rw [extractDiagnostics, collectSpec]
  exact h.2.1

end GoAnalysis
